import Mathlib

/-!
# Consistent hash ring (`Consistent/consistentHashing.go`)

A shallow embedding of the ring of `consistentHashing.go`: the state `ConsistentHash`
(`Keys`, `Nodes`, `TotalSlots`) and the operations `NewConsistentHash`, `hashFn`, `AddNode`,
`RemoveNode` and `Assign`, followed by the properties established about them.

Modelling conventions.
* Go `int` values are `Int`: the ring only forms values between 0 and `TotalSlots`, so no
  operation overflows at either width Go gives `int`.  In the baseline the conversion
  `int(h.Sum32())` depends on that width, which is a parameter there: 32 or 64 bits.
* A Go string is hashed through its bytes; a `String` stands for its UTF-8 encoding.
* The map `Nodes : map[int]*StorageNode` is a function `Int → Option StorageNode`; a slot is
  occupied when the function is `some _` there.  A `*StorageNode` is identified with the
  record it points to, and `none` is the nil pointer a lookup of a missing key yields.
* A run-time panic is an `Except.error`; the unbounded `for` loop of `AddNode` is run with a
  bound on its number of iterations, and `Outcome.running` says the loop has not left yet.
* `crypto/sha256`, `sort.SearchInts` and `sort.Ints` are library code; they are embedded here
  from their published definitions (FIPS 180-4, the binary search of package `sort`).
-/

namespace Sha256

/-- Bisection for the integer root: `lo ^ k ≤ n < hi ^ k` is kept while the window halves. -/
def rootLoop (k n : Nat) : Nat → Nat → Nat → Nat
  | 0, lo, _ => lo
  | fuel + 1, lo, hi =>
    if lo + 1 < hi then
      let mid := (lo + hi) / 2
      if mid ^ k ≤ n then rootLoop k n fuel mid hi else rootLoop k n fuel lo mid
    else lo

/-- Floor of the `k`-th root of `n`, for `n < 2 ^ (40 * k)`. -/
def iroot (k n : Nat) : Nat := rootLoop k n 40 0 (2 ^ 40)

/-- The first 64 primes. -/
def primes : List Nat :=
  [2, 3, 5, 7, 11, 13, 17, 19, 23, 29, 31, 37, 41, 43, 47, 53,
   59, 61, 67, 71, 73, 79, 83, 89, 97, 101, 103, 107, 109, 113, 127, 131,
   137, 139, 149, 151, 157, 163, 167, 173, 179, 181, 191, 193, 197, 199, 211, 223,
   227, 229, 233, 239, 241, 251, 257, 263, 269, 271, 277, 281, 283, 293, 307, 311]

/-- Round constants (FIPS 180-4, 4.2.2): the first 32 bits of the fractional parts of the
cube roots of the first 64 primes. -/
def K : List Nat := primes.map fun p => iroot 3 (p * 2 ^ 96) % 2 ^ 32

/-- Initial hash value (FIPS 180-4, 5.3.3): the first 32 bits of the fractional parts of the
square roots of the first 8 primes. -/
def H0 : List Nat := (primes.take 8).map fun p => iroot 2 (p * 2 ^ 64) % 2 ^ 32

def w32 : Nat := 2 ^ 32

def rotr (x n : Nat) : Nat := (x / 2 ^ n + x * 2 ^ (32 - n)) % w32

def bnot (x : Nat) : Nat := w32 - 1 - x

def bigSigma0 (x : Nat) : Nat := (rotr x 2 ^^^ rotr x 13) ^^^ rotr x 22
def bigSigma1 (x : Nat) : Nat := (rotr x 6 ^^^ rotr x 11) ^^^ rotr x 25
def smallSigma0 (x : Nat) : Nat := (rotr x 7 ^^^ rotr x 18) ^^^ (x / 2 ^ 3)
def smallSigma1 (x : Nat) : Nat := (rotr x 17 ^^^ rotr x 19) ^^^ (x / 2 ^ 10)
def choose (e f g : Nat) : Nat := (e &&& f) ^^^ (bnot e &&& g)
def majority (a b c : Nat) : Nat := ((a &&& b) ^^^ (a &&& c)) ^^^ (b &&& c)

/-- UTF-8 bytes of one character. -/
def charBytes (c : Char) : List Nat :=
  let n := c.toNat
  if n < 0x80 then [n]
  else if n < 0x800 then [0xC0 + n / 64, 0x80 + n % 64]
  else if n < 0x10000 then [0xE0 + n / 4096, 0x80 + n / 64 % 64, 0x80 + n % 64]
  else [0xF0 + n / 262144, 0x80 + n / 4096 % 64, 0x80 + n / 64 % 64, 0x80 + n % 64]

def stringBytes (s : String) : List Nat := s.data.flatMap charBytes

def pad (msg : List Nat) : List Nat :=
  let l := msg.length
  let z := (64 - (l + 9) % 64) % 64
  let bits := 8 * l
  msg ++ [0x80] ++ List.replicate z 0 ++
    [bits / 2 ^ 56 % 256, bits / 2 ^ 48 % 256, bits / 2 ^ 40 % 256, bits / 2 ^ 32 % 256,
     bits / 2 ^ 24 % 256, bits / 2 ^ 16 % 256, bits / 2 ^ 8 % 256, bits % 256]

/-- Big-endian 32-bit words of a byte list (length a multiple of four). -/
def words : List Nat → List Nat
  | a :: b :: c :: d :: rest => (((a * 256 + b) * 256 + c) * 256 + d) :: words rest
  | _ => []

/-- Extend the message schedule: `w` holds the schedule so far, most recent first. -/
def extend : Nat → List Nat → List Nat
  | 0, w => w
  | n + 1, w =>
    let x := (smallSigma1 (w.getD 1 0) + w.getD 6 0 + smallSigma0 (w.getD 14 0) + w.getD 15 0) % w32
    extend n (x :: w)

def schedule (block : List Nat) : List Nat := (extend 48 block.reverse).reverse

def round (s : List Nat) (kw : Nat × Nat) : List Nat :=
  match s with
  | [a, b, c, d, e, f, g, h] =>
    let t1 := (h + bigSigma1 e + choose e f g + kw.1 + kw.2) % w32
    let t2 := (bigSigma0 a + majority a b c) % w32
    [(t1 + t2) % w32, a, b, c, (d + t1) % w32, e, f, g]
  | _ => s

def compress (h : List Nat) (block : List Nat) : List Nat :=
  List.zipWith (fun x y => (x + y) % w32) h ((K.zip (schedule block)).foldl round h)

def blocks : Nat → List Nat → List (List Nat)
  | 0, _ => []
  | n + 1, ws => ws.take 16 :: blocks n (ws.drop 16)

def digestWords (msg : List Nat) : List Nat :=
  let ws := words (pad msg)
  (blocks (ws.length / 16) ws).foldl compress H0

def sum (msg : List Nat) : List Nat :=
  (digestWords msg).flatMap fun w => [w / 2 ^ 24 % 256, w / 2 ^ 16 % 256, w / 2 ^ 8 % 256, w % 256]

end Sha256


/-! ## The ring -/

/-- Run-time panics the ring operations can raise. -/
inductive Panic where
  | integerDivideByZero
  | indexOutOfRange
  deriving DecidableEq, Repr

/-- Result of an operation whose loop is run for a bounded number of iterations. -/
inductive Outcome (α : Type) where
  | returns (a : α)
  | panics (p : Panic)
  | running

/-- The record `StorageNode` of the source. -/
structure StorageNode where
  Name : String
  Host : String
  deriving DecidableEq, Repr

/-- The record `ConsistentHash` of the source. -/
structure ConsistentHash where
  Keys : List Int
  Nodes : Int → Option StorageNode
  TotalSlots : Int

def NewConsistentHash (totalSlots : Int) : ConsistentHash :=
  ⟨[], fun _ => none, totalSlots⟩

/-- First byte of the SHA-256 digest of the key, reduced by Go's `%` (truncated remainder);
a zero divisor panics. -/
def hashFn (key : String) (totalSlots : Int) : Except Panic Int :=
  let hashValue : Int := ((Sha256.sum (Sha256.stringBytes key)).headD 0 : Nat)
  if totalSlots = 0 then .error .integerDivideByZero
  else .ok (Int.tmod hashValue totalSlots)

/-- The loop of `sort.SearchInts` on the window `[i, j)`: `h` is the midpoint, the window
shrinks to `[h + 1, j)` when `a[h] < x` and to `[i, h)` otherwise. -/
def searchLoop (a : List Int) (x : Int) : Nat → Nat → Nat → Nat
  | 0, i, _ => i
  | fuel + 1, i, j =>
    if i < j then
      let h := (i + j) / 2
      if a.getD h 0 < x then searchLoop a x fuel (h + 1) j else searchLoop a x fuel i h
    else i

/-- Library `sort.SearchInts`; the window halves at each step, so `a.length` steps suffice. -/
def SearchInts (a : List Int) (x : Int) : Nat :=
  searchLoop a x a.length 0 a.length

/-- Library `sort.Ints`: the ascending rearrangement of the slice. -/
def sortInts (a : List Int) : List Int :=
  a.insertionSort (· ≤ ·)

/-- The collision loop of `AddNode`, run for at most `fuel` tests of `ch.Nodes[key]`;
`none` when all of them found the slot taken. -/
def probe (nodes : Int → Option StorageNode) (totalSlots : Int) : Nat → Int → Option Int
  | 0, _ => none
  | fuel + 1, key =>
    if (nodes key).isNone then some key
    else probe nodes totalSlots fuel (Int.tmod (key + 1) totalSlots)

def AddNode (fuel : Nat) (ch : ConsistentHash) (node : StorageNode) :
    Outcome (Int × ConsistentHash) :=
  match hashFn node.Host ch.TotalSlots with
  | .error p => .panics p
  | .ok base =>
    match probe ch.Nodes ch.TotalSlots fuel base with
    | none => .running
    | some key =>
      .returns (key,
        ⟨sortInts (ch.Keys ++ [key]), Function.update ch.Nodes key (some node), ch.TotalSlots⟩)

def RemoveNode (ch : ConsistentHash) (node : StorageNode) : Except Panic ConsistentHash :=
  match hashFn node.Host ch.TotalSlots with
  | .error p => .error p
  | .ok key =>
    let index := SearchInts ch.Keys key
    if index < ch.Keys.length ∧ ch.Keys[index]? = some key then
      .ok ⟨ch.Keys.take index ++ ch.Keys.drop (index + 1),
           Function.update ch.Nodes key none, ch.TotalSlots⟩
    else .ok ch

def Assign (ch : ConsistentHash) (item : String) : Except Panic (Option StorageNode) :=
  match hashFn item ch.TotalSlots with
  | .error p => .error p
  | .ok key =>
    let index := SearchInts ch.Keys key
    let index := if index = ch.Keys.length then 0 else index
    match ch.Keys[index]? with
    | none => .error .indexOutOfRange
    | some slot => .ok (ch.Nodes slot)

/-- The call `ch.Assign(item)` together with the state of the receiver after it: the body of
`Assign` reads `ch.TotalSlots`, `ch.Keys` and `ch.Nodes` and assigns to none of them. -/
def AssignCall (ch : ConsistentHash) (item : String) :
    Except Panic (Option StorageNode × ConsistentHash) :=
  match Assign ch item with
  | .error p => .error p
  | .ok node => .ok (node, ch)

/-- Ring invariant: `Keys` strictly ascending, and a slot is in `Keys` exactly when it has
an entry in `Nodes`. -/
def RingInv (ch : ConsistentHash) : Prop :=
  ch.Keys.Pairwise (· < ·) ∧ ∀ k : Int, k ∈ ch.Keys ↔ ch.Nodes k ≠ none

/-- Slot `s` owns hash value `h` on the ring `keys`: it is the least occupied slot that is
`≥ h`, or, when no occupied slot is `≥ h`, the least occupied slot. -/
def IsOwnerSlot (keys : List Int) (h s : Int) : Prop :=
  s ∈ keys ∧
    ((h ≤ s ∧ ∀ t ∈ keys, h ≤ t → s ≤ t) ∨ ((∀ t ∈ keys, t < h) ∧ ∀ t ∈ keys, s ≤ t))

/-- Slot `p` is the occupied slot immediately preceding the free slot `s` on the ring: the
greatest occupied slot below `s`, or, when none is below `s`, the greatest occupied slot. -/
def IsRingPred (keys : List Int) (s p : Int) : Prop :=
  p ∈ keys ∧
    ((p < s ∧ ∀ q ∈ keys, q < s → q ≤ p) ∨ ((∀ q ∈ keys, s ≤ q) ∧ ∀ q ∈ keys, q ≤ p))

/-- Hash value `h` lies in the arc `(p, s]` of the ring, which runs through the end of the
slot space when `s` is below `p`. -/
def InArc (p s h : Int) : Prop :=
  if p < s then p < h ∧ h ≤ s else p < h ∨ h ≤ s

/-- Slot `s` is free: a slot of the hash space with no entry in `Nodes`. -/
def FreeSlot (ch : ConsistentHash) (s : Int) : Prop :=
  0 ≤ s ∧ s < ch.TotalSlots ∧ ch.Nodes s = none

instance (ch : ConsistentHash) (s : Int) : Decidable (FreeSlot ch s) := by
  unfold FreeSlot
  infer_instance

/-- A ring state given by its slot/node entries. -/
def ringOf (entries : List (Int × StorageNode)) (totalSlots : Int) : ConsistentHash :=
  ⟨entries.map Prod.fst, fun k => entries.lookup k, totalSlots⟩

/-- Run `AddNode` on the nodes of a list in turn, collecting the returned slots; `none` when
one of the calls does not return within `fuel` probes. -/
def addNodes (fuel : Nat) : ConsistentHash → List StorageNode → Option (List Int × ConsistentHash)
  | ch, [] => some ([], ch)
  | ch, node :: rest =>
    match AddNode fuel ch node with
    | .returns (s, ch') =>
      match addNodes fuel ch' rest with
      | some (slots, ch'') => some (s :: slots, ch'')
      | none => none
    | _ => none

/-! The nodes of `main`, and a sixth node that `main` does not add. -/

def nodeA : StorageNode := ⟨"A", "239.67.52.72"⟩
def nodeB : StorageNode := ⟨"B", "137.70.131.229"⟩
def nodeC : StorageNode := ⟨"C", "98.5.87.182"⟩
def nodeD : StorageNode := ⟨"D", "11.225.158.95"⟩
def nodeE : StorageNode := ⟨"E", "203.187.116.210"⟩

def nodeF : StorageNode := ⟨"F", "10.0.0.6"⟩

def mainNodes : List StorageNode := [nodeA, nodeB, nodeC, nodeD, nodeE]

/-- The ring `main` builds: the five nodes over 50 slots. -/
def mainRing : ConsistentHash :=
  ringOf [(2, nodeE), (15, nodeB), (22, nodeD), (27, nodeA), (39, nodeC)] 50

/-- A seventh node, whose host has base slot 2 on a ring of 10 slots, as `D` and `E` have. -/
def nodeG : StorageNode := ⟨"G", "10.0.0.19"⟩

/-- The hash the specification words describe: the first 64 bits of the digest of the key,
reduced modulo `totalSlots`. -/
def wideHash (key : String) (totalSlots : Int) : Int :=
  match Sha256.digestWords (Sha256.stringBytes key) with
  | w0 :: w1 :: _ => Int.emod (Int.ofNat (w0 * 2 ^ 32 + w1)) totalSlots
  | _ => 0

/-- Ring states reachable from `NewConsistentHash totalSlots` by calls of `AddNode` and
`RemoveNode` that return. -/
inductive Reachable (totalSlots : Int) : ConsistentHash → Prop
  | new : Reachable totalSlots (NewConsistentHash totalSlots)
  | add {ch ch' : ConsistentHash} {fuel : Nat} {node : StorageNode} {s : Int} :
      Reachable totalSlots ch → AddNode fuel ch node = .returns (s, ch') →
      Reachable totalSlots ch'
  | remove {ch ch' : ConsistentHash} {node : StorageNode} :
      Reachable totalSlots ch → RemoveNode ch node = .ok ch' → Reachable totalSlots ch'

/-! ## The modulo-hash baseline (`normalHashing.go`) -/

namespace Baseline

/-- Library `hash/fnv`, `New32a`: from the offset basis, each byte is xor-ed into the hash,
which is then multiplied by the FNV prime modulo `2 ^ 32`. -/
def fnv1a (bytes : List Nat) : Nat :=
  bytes.foldl (fun h b => (h ^^^ b) * 16777619 % 2 ^ 32) 2166136261

/-- Conversion of an unsigned value to a Go `int` of `bits` bits (32 or 64, by the build):
the value is kept modulo `2 ^ bits` and read in two's complement. -/
def goInt (bits : Nat) (x : Nat) : Int :=
  if x % 2 ^ bits < 2 ^ (bits - 1) then Int.ofNat (x % 2 ^ bits)
  else Int.ofNat (x % 2 ^ bits) - Int.ofNat (2 ^ bits)

/-- The package variable `storageNodes`. -/
def storageNodes : List StorageNode :=
  [⟨"A", ""⟩, ⟨"B", ""⟩, ⟨"C", ""⟩, ⟨"D", ""⟩, ⟨"E", ""⟩]

/-- The baseline `hashFn`, on a build whose `int` has `bits` bits:
`int(h.Sum32()) % len(storageNodes)`, with Go's truncated remainder. -/
def hashFn (bits : Nat) (key : String) : Except Panic Int :=
  if Int.ofNat storageNodes.length = 0 then .error .integerDivideByZero
  else
    .ok (Int.tmod (goInt bits (fnv1a (Sha256.stringBytes key))) (Int.ofNat storageNodes.length))

/-- The access `storageNodes[index]`. -/
def nodeAt (index : Int) : Except Panic StorageNode :=
  if 0 ≤ index then
    match storageNodes[index.toNat]? with
    | some node => .ok node
    | none => .error .indexOutOfRange
  else .error .indexOutOfRange

/-- The node `upload`, `fetch` and `main` select for a path: `storageNodes[hashFn(path)]`. -/
def route (bits : Nat) (path : String) : Except Panic StorageNode :=
  match hashFn bits path with
  | .error p => .error p
  | .ok index => nodeAt index

end Baseline

deriving instance DecidableEq for Except

set_option maxRecDepth 100000

/-! ## Library facts: hashing and searching -/

/-- The digest of `abc` is the one FIPS 180-4 gives for it. -/
theorem digestWords_abc :
    Sha256.digestWords (Sha256.stringBytes "abc") =
      [0xba7816bf, 0x8f01cfea, 0x414140de, 0x5dae2223,
       0xb00361a3, 0x96177a9c, 0xb410ff61, 0xf20015ad] := by
  decide

theorem hashFn_ok (key : String) {totalSlots : Int} (hT : totalSlots ≠ 0) :
    ∃ h, hashFn key totalSlots = .ok h := by
  simp [hashFn, hT]

theorem hashFn_zero (key : String) : hashFn key 0 = .error .integerDivideByZero := by
  simp [hashFn]

theorem hashFn_range {key : String} {totalSlots h : Int} (hT : 0 < totalSlots)
    (hh : hashFn key totalSlots = .ok h) : 0 ≤ h ∧ h < totalSlots := by
  have hne : totalSlots ≠ 0 := ne_of_gt hT
  simp only [hashFn, hne, if_false] at hh
  injection hh with hh
  subst hh
  rw [Int.tmod_eq_emod (Int.ofNat_zero_le _) (le_of_lt hT)]
  exact ⟨Int.emod_nonneg _ hne, Int.emod_lt_of_pos _ hT⟩

theorem searchLoop_spec (a : List Int) (x : Int) (hs : a.Pairwise (· < ·)) :
    ∀ fuel i j : Nat, i ≤ j → j ≤ a.length → j - i ≤ fuel →
      (∀ k, k < i → a.getD k 0 < x) →
      (∀ k, j ≤ k → k < a.length → x ≤ a.getD k 0) →
      searchLoop a x fuel i j ≤ a.length ∧
        (∀ k, k < searchLoop a x fuel i j → a.getD k 0 < x) ∧
        (∀ k, searchLoop a x fuel i j ≤ k → k < a.length → x ≤ a.getD k 0) := by
  have mono : ∀ p q : Nat, p ≤ q → q < a.length → a.getD p 0 ≤ a.getD q 0 := by
    intro p q hpq hq
    rcases Nat.eq_or_lt_of_le hpq with h | h
    · subst h; exact le_refl _
    · rw [List.getD_eq_getElem _ _ (lt_trans h hq), List.getD_eq_getElem _ _ hq]
      exact le_of_lt (List.pairwise_iff_getElem.mp hs p q (lt_trans h hq) hq h)
  intro fuel
  induction fuel with
  | zero =>
    intro i j hij hj hf hlo hhi
    have : i = j := by omega
    subst this
    exact ⟨hj, hlo, hhi⟩
  | succ fuel ih =>
    intro i j hij hj hf hlo hhi
    unfold searchLoop
    by_cases hlt : i < j
    · simp only [hlt, if_true]
      by_cases hm : a.getD ((i + j) / 2) 0 < x
      · simp only [hm, if_true]
        apply ih _ _ (by omega) hj (by omega)
        · intro k hk
          exact lt_of_le_of_lt (mono k _ (by omega) (by omega)) hm
        · exact hhi
      · simp only [hm, if_false]
        apply ih _ _ (by omega) (by omega) (by omega) hlo
        intro k hk hkl
        exact le_trans (not_lt.mp hm) (mono _ k hk hkl)
    · simp only [hlt, if_false]
      have : i = j := by omega
      subst this
      exact ⟨hj, hlo, hhi⟩

theorem SearchInts_spec (a : List Int) (x : Int) (hs : a.Pairwise (· < ·)) :
    SearchInts a x ≤ a.length ∧
      (∀ k, k < SearchInts a x → a.getD k 0 < x) ∧
      (∀ k, SearchInts a x ≤ k → k < a.length → x ≤ a.getD k 0) := by
  unfold SearchInts
  apply searchLoop_spec a x hs _ _ _ (Nat.zero_le _) (le_refl _) (by omega)
  · intro k hk; omega
  · intro k hk hkl; omega

/-! ## Lookup -/

theorem IsOwnerSlot_unique {keys : List Int} {h s t : Int}
    (hs : IsOwnerSlot keys h s) (ht : IsOwnerSlot keys h t) : s = t := by
  obtain ⟨hsm, hs⟩ := hs
  obtain ⟨htm, ht⟩ := ht
  rcases hs with ⟨hs1, hs2⟩ | ⟨hs1, hs2⟩ <;> rcases ht with ⟨ht1, ht2⟩ | ⟨ht1, ht2⟩
  · exact le_antisymm (hs2 t htm ht1) (ht2 s hsm hs1)
  · have := ht1 s hsm; omega
  · have := hs1 t htm; omega
  · exact le_antisymm (hs2 t htm) (ht2 s hsm)

/-- The index `Assign` computes (the search result, reset to `0` at the end of `Keys`) is in
bounds on a non-empty sorted ring and selects the owner slot. -/
theorem owner_of_search (keys : List Int) (h : Int) (hs : keys.Pairwise (· < ·))
    (hne : keys ≠ []) :
    ∃ s, keys[if SearchInts keys h = keys.length then 0 else SearchInts keys h]? = some s ∧
      IsOwnerSlot keys h s := by
  obtain ⟨hle, hlo, hhi⟩ := SearchInts_spec keys h hs
  have hpos : 0 < keys.length := List.length_pos.mpr hne
  have idx : ∀ t ∈ keys, ∃ k, k < keys.length ∧ keys.getD k 0 = t := by
    intro t ht
    obtain ⟨k, hk, rfl⟩ := List.getElem_of_mem ht
    exact ⟨k, hk, List.getD_eq_getElem _ _ hk⟩
  have mono : ∀ p q : Nat, p ≤ q → q < keys.length → keys.getD p 0 ≤ keys.getD q 0 := by
    intro p q hpq hq
    rcases Nat.eq_or_lt_of_le hpq with e | e
    · subst e; exact le_refl _
    · rw [List.getD_eq_getElem _ _ (lt_trans e hq), List.getD_eq_getElem _ _ hq]
      exact le_of_lt (List.pairwise_iff_getElem.mp hs p q (lt_trans e hq) hq e)
  by_cases hr : SearchInts keys h = keys.length
  · refine ⟨keys.getD 0 0, ?_, ?_, Or.inr ⟨?_, ?_⟩⟩
    · simp only [hr, if_true]
      rw [List.getElem?_eq_getElem hpos, List.getD_eq_getElem _ _ hpos]
    · rw [List.getD_eq_getElem _ _ hpos]; exact List.getElem_mem _
    · intro t ht
      obtain ⟨k, hk, rfl⟩ := idx t ht
      exact hlo k (by omega)
    · intro t ht
      obtain ⟨k, hk, rfl⟩ := idx t ht
      exact mono 0 k (Nat.zero_le _) hk
  · have hlt : SearchInts keys h < keys.length := by omega
    refine ⟨keys.getD (SearchInts keys h) 0, ?_, ?_, Or.inl ⟨?_, ?_⟩⟩
    · simp only [hr, if_false]
      rw [List.getElem?_eq_getElem hlt, List.getD_eq_getElem _ _ hlt]
    · rw [List.getD_eq_getElem _ _ hlt]; exact List.getElem_mem _
    · exact hhi _ (le_refl _) hlt
    · intro t ht hht
      obtain ⟨k, hk, rfl⟩ := idx t ht
      by_cases hkr : k < SearchInts keys h
      · have := hlo k hkr; omega
      · exact mono _ k (by omega) hk

theorem Assign_eq_of_owner {ch : ConsistentHash} {item : String} {h s : Int}
    (hs : ch.Keys.Pairwise (· < ·)) (hh : hashFn item ch.TotalSlots = .ok h)
    (ho : IsOwnerSlot ch.Keys h s) : Assign ch item = .ok (ch.Nodes s) := by
  have hne : ch.Keys ≠ [] := List.ne_nil_of_mem ho.1
  obtain ⟨s0, hidx, ho0⟩ := owner_of_search ch.Keys h hs hne
  have e : s0 = s := IsOwnerSlot_unique ho0 ho
  subst e
  simp only [Assign, hh, hidx]

theorem exists_owner (keys : List Int) (h : Int) (hs : keys.Pairwise (· < ·))
    (hne : keys ≠ []) : ∃ s, IsOwnerSlot keys h s := by
  obtain ⟨s, _, ho⟩ := owner_of_search keys h hs hne
  exact ⟨s, ho⟩

/-! ## Membership changes -/

theorem sortInts_pairwise {keys : List Int} {s : Int} (hs : keys.Pairwise (· < ·))
    (hnot : s ∉ keys) : (sortInts (keys ++ [s])).Pairwise (· < ·) := by
  have hperm : List.Perm (sortInts (keys ++ [s])) (keys ++ [s]) := List.perm_insertionSort _ _
  have hnd : (keys ++ [s]).Nodup := by
    rw [List.nodup_append]
    refine ⟨hs.nodup, List.nodup_singleton s, ?_⟩
    intro a ha hb
    rw [List.mem_singleton] at hb
    subst hb
    exact hnot ha
  have hsorted : (sortInts (keys ++ [s])).Sorted (· ≤ ·) := List.sorted_insertionSort _ _
  exact hsorted.lt_of_le (hperm.nodup_iff.mpr hnd)

theorem mem_sortInts {keys : List Int} {s k : Int} :
    k ∈ sortInts (keys ++ [s]) ↔ k ∈ keys ∨ k = s := by
  unfold sortInts
  rw [List.mem_insertionSort, List.mem_append, List.mem_singleton]

theorem probe_free {nodes : Int → Option StorageNode} {totalSlots : Int} :
    ∀ (fuel : Nat) (key s : Int), probe nodes totalSlots fuel key = some s → nodes s = none := by
  intro fuel
  induction fuel with
  | zero => intro key s h; simp [probe] at h
  | succ fuel ih =>
    intro key s h
    unfold probe at h
    by_cases hk : (nodes key).isNone
    · simp only [hk, if_true] at h
      injection h with h
      subst h
      exact Option.isNone_iff_eq_none.mp hk
    · simp only [hk] at h
      exact ih _ _ h

/-- The loop returns the slot `i` steps after `key` when that slot is the first free one and
`fuel` allows more than `i` tests. -/
theorem probe_eq {nodes : Int → Option StorageNode} {totalSlots : Int} (hT : 0 < totalSlots) :
    ∀ (fuel : Nat) (key : Int) (i : Nat), 0 ≤ key → key < totalSlots → i < fuel →
      nodes ((key + i) % totalSlots) = none →
      (∀ j : Nat, j < i → nodes ((key + j) % totalSlots) ≠ none) →
      probe nodes totalSlots fuel key = some ((key + i) % totalSlots) := by
  intro fuel
  induction fuel with
  | zero => intro key i _ _ hi; omega
  | succ fuel ih =>
    intro key i h0 h1 hi hfree hocc
    unfold probe
    cases i with
    | zero =>
      have e : (key + ((0 : Nat) : Int)) % totalSlots = key := by
        simp only [Nat.cast_zero, add_zero]
        exact Int.emod_eq_of_lt h0 h1
      rw [e] at hfree ⊢
      simp [hfree]
    | succ i =>
      have hk : nodes key ≠ none := by
        have := hocc 0 (Nat.succ_pos _)
        simp only [Nat.cast_zero, add_zero] at this
        rwa [Int.emod_eq_of_lt h0 h1] at this
      have hk2 : ¬ (nodes key).isNone = true := by
        rw [Option.isNone_iff_eq_none]; exact hk
      simp only [hk2]
      have hnext : Int.tmod (key + 1) totalSlots = (key + 1) % totalSlots :=
        Int.tmod_eq_emod (by omega) (le_of_lt hT)
      have hstep : ∀ m : Nat, ((key + 1) % totalSlots + (m : Int)) % totalSlots
          = (key + ((m + 1 : Nat) : Int)) % totalSlots := by
        intro m
        rw [Int.emod_add_emod]
        congr 1
        push_cast
        ring
      have hr := ih ((key + 1) % totalSlots) i (Int.emod_nonneg _ (ne_of_gt hT))
        (Int.emod_lt_of_pos _ hT) (by omega) (by rw [hstep]; exact hfree)
        (by intro j hj; rw [hstep]; exact hocc (j + 1) (by omega))
      rw [hnext, hr, hstep]
      simp

theorem probe_least {nodes : Int → Option StorageNode} {totalSlots b f : Int}
    (hf0 : 0 ≤ f) (hf1 : f < totalSlots) (hfree : nodes f = none) :
    ∃ i : Nat, (i : Int) < totalSlots ∧ nodes ((b + i) % totalSlots) = none ∧
      ∀ j : Nat, j < i → nodes ((b + j) % totalSlots) ≠ none := by
  have hT : 0 < totalSlots := lt_of_le_of_lt hf0 hf1
  have hex : ∃ i : Nat, nodes ((b + i) % totalSlots) = none := by
    refine ⟨((f - b) % totalSlots).toNat, ?_⟩
    rw [Int.toNat_of_nonneg (Int.emod_nonneg _ (ne_of_gt hT)), Int.add_emod_emod,
      add_sub_cancel, Int.emod_eq_of_lt hf0 hf1]
    exact hfree
  refine ⟨Nat.find hex, ?_, Nat.find_spec hex, fun j hj => Nat.find_min hex hj⟩
  by_contra hge
  have hge : totalSlots ≤ (Nat.find hex : Int) := not_lt.mp hge
  have hlt : (Nat.find hex : Int) - totalSlots < (Nat.find hex : Int) := by omega
  have hmin := Nat.find_min hex (m := ((Nat.find hex : Int) - totalSlots).toNat) (by omega)
  apply hmin
  rw [Int.toNat_of_nonneg (by omega)]
  have e : (b + ((Nat.find hex : Int) - totalSlots)) % totalSlots
      = (b + (Nat.find hex : Int)) % totalSlots := by
    rw [show b + ((Nat.find hex : Int) - totalSlots) = b + (Nat.find hex : Int) - totalSlots
      by ring, Int.emod_sub_cancel]
  rw [e]
  exact Nat.find_spec hex

theorem probe_full {nodes : Int → Option StorageNode} {totalSlots : Int} (hT : 0 < totalSlots)
    (hfull : ∀ k : Int, 0 ≤ k → k < totalSlots → nodes k ≠ none) :
    ∀ (fuel : Nat) (key : Int), 0 ≤ key → key < totalSlots →
      probe nodes totalSlots fuel key = none := by
  intro fuel
  induction fuel with
  | zero => intro key _ _; rfl
  | succ fuel ih =>
    intro key h0 h1
    unfold probe
    have hk : ¬ (nodes key).isNone = true := by
      rw [Option.isNone_iff_eq_none]; exact hfull key h0 h1
    simp only [hk]
    rw [Int.tmod_eq_emod (by omega) (le_of_lt hT)]
    simpa using ih _ (Int.emod_nonneg _ (ne_of_gt hT)) (Int.emod_lt_of_pos _ hT)

theorem AddNode_returns_iff {fuel : Nat} {ch ch' : ConsistentHash} {node : StorageNode}
    {s : Int} :
    AddNode fuel ch node = .returns (s, ch') ↔
      ∃ b, hashFn node.Host ch.TotalSlots = .ok b ∧ probe ch.Nodes ch.TotalSlots fuel b = some s ∧
        ch' = ⟨sortInts (ch.Keys ++ [s]), Function.update ch.Nodes s (some node),
          ch.TotalSlots⟩ := by
  unfold AddNode
  cases hh : hashFn node.Host ch.TotalSlots with
  | error p => simp
  | ok b =>
    cases hp : probe ch.Nodes ch.TotalSlots fuel b with
    | none => simp [hp]
    | some key =>
      simp only [hp, Outcome.returns.injEq, Prod.mk.injEq, Except.ok.injEq, Option.some.injEq,
        exists_eq_left']
      constructor
      · rintro ⟨rfl, rfl⟩; exact ⟨rfl, rfl⟩
      · rintro ⟨rfl, rfl⟩; exact ⟨rfl, rfl⟩

theorem RingInv_new (totalSlots : Int) : RingInv (NewConsistentHash totalSlots) := by
  refine ⟨List.Pairwise.nil, fun k => ?_⟩
  simp [NewConsistentHash]

theorem RingInv_AddNode {fuel : Nat} {ch ch' : ConsistentHash} {node : StorageNode} {s : Int}
    (hinv : RingInv ch) (h : AddNode fuel ch node = .returns (s, ch')) : RingInv ch' := by
  obtain ⟨b, _, hp, rfl⟩ := AddNode_returns_iff.mp h
  have hfree : ch.Nodes s = none := probe_free _ _ _ hp
  have hnot : s ∉ ch.Keys := fun hm => (hinv.2 s).mp hm hfree
  refine ⟨sortInts_pairwise hinv.1 hnot, fun k => ?_⟩
  show k ∈ sortInts (ch.Keys ++ [s]) ↔ Function.update ch.Nodes s (some node) k ≠ none
  rw [mem_sortInts]
  by_cases hk : k = s
  · subst hk; simp
  · rw [Function.update_noteq hk]
    simp [hk, hinv.2 k]

theorem pairwise_remove_middle (l1 l2 : List Int) (key : Int)
    (hs : (l1 ++ key :: l2).Pairwise (· < ·)) :
    (l1 ++ l2).Pairwise (· < ·) ∧ ∀ k, k ∈ l1 ++ l2 ↔ k ∈ l1 ++ key :: l2 ∧ k ≠ key := by
  rw [List.pairwise_append, List.pairwise_cons] at hs
  obtain ⟨h1, ⟨hk2, h2⟩, h12⟩ := hs
  refine ⟨List.pairwise_append.mpr ⟨h1, h2, fun a ha b hb =>
    h12 a ha b (List.mem_cons_of_mem _ hb)⟩, fun k => ?_⟩
  simp only [List.mem_append, List.mem_cons]
  constructor
  · rintro (hk | hk)
    · exact ⟨Or.inl hk, ne_of_lt (h12 k hk key (List.mem_cons_self _ _))⟩
    · exact ⟨Or.inr (Or.inr hk), ne_of_gt (hk2 k hk)⟩
  · rintro ⟨hk | hk | hk, hne⟩
    · exact Or.inl hk
    · exact absurd hk hne
    · exact Or.inr hk

/-- On a strictly ascending slice the test of `RemoveNode` succeeds exactly when the slot is
in the slice. -/
theorem search_hit_iff (keys : List Int) (key : Int) (hs : keys.Pairwise (· < ·)) :
    (SearchInts keys key < keys.length ∧ keys[SearchInts keys key]? = some key) ↔
      key ∈ keys := by
  obtain ⟨_, hlo, hhi⟩ := SearchInts_spec keys key hs
  constructor
  · rintro ⟨_, h⟩
    exact List.getElem?_mem h
  · intro hm
    obtain ⟨k, hk, hkey⟩ := List.getElem_of_mem hm
    have hrk : SearchInts keys key ≤ k := by
      by_contra hlt
      have := hlo k (not_le.mp hlt)
      rw [List.getD_eq_getElem _ _ hk, hkey] at this
      exact lt_irrefl _ this
    have hr : SearchInts keys key < keys.length := lt_of_le_of_lt hrk hk
    refine ⟨hr, ?_⟩
    rw [List.getElem?_eq_getElem hr]
    congr 1
    have h1 := hhi _ (le_refl _) hr
    rw [List.getD_eq_getElem _ _ hr] at h1
    rcases Nat.eq_or_lt_of_le hrk with e | e
    · subst e; exact hkey
    · have := List.pairwise_iff_getElem.mp hs _ _ hr hk e
      omega

theorem RemoveNode_miss {ch : ConsistentHash} {node : StorageNode} {key : Int}
    (hh : hashFn node.Host ch.TotalSlots = .ok key) (hk : key ∉ ch.Keys) :
    RemoveNode ch node = .ok ch := by
  unfold RemoveNode
  simp only [hh]
  have : ¬ (SearchInts ch.Keys key < ch.Keys.length ∧
      ch.Keys[SearchInts ch.Keys key]? = some key) := fun h => hk (List.getElem?_mem h.2)
  simp only [this, if_false]

theorem RemoveNode_spec {ch : ConsistentHash} {node : StorageNode} {key : Int}
    (hinv : RingInv ch) (hh : hashFn node.Host ch.TotalSlots = .ok key) :
    ∃ ch', RemoveNode ch node = .ok ch' ∧ ch'.TotalSlots = ch.TotalSlots ∧
      ch'.Keys.Pairwise (· < ·) ∧ (∀ k, k ∈ ch'.Keys ↔ k ∈ ch.Keys ∧ k ≠ key) ∧
      ch'.Nodes = Function.update ch.Nodes key none := by
  by_cases hk : key ∈ ch.Keys
  · obtain ⟨hr, hget⟩ := (search_hit_iff ch.Keys key hinv.1).mpr hk
    have hsplit : ch.Keys = ch.Keys.take (SearchInts ch.Keys key) ++
        key :: ch.Keys.drop (SearchInts ch.Keys key + 1) := by
      have e : ch.Keys[SearchInts ch.Keys key] = key := by
        rw [List.getElem?_eq_getElem hr] at hget
        exact Option.some.inj hget
      have d := List.drop_eq_getElem_cons hr
      rw [e] at d
      rw [← d, List.take_append_drop]
    have hs := hinv.1
    rw [hsplit] at hs
    obtain ⟨hp, hmem⟩ := pairwise_remove_middle _ _ _ hs
    refine ⟨⟨ch.Keys.take (SearchInts ch.Keys key) ++ ch.Keys.drop (SearchInts ch.Keys key + 1),
      Function.update ch.Nodes key none, ch.TotalSlots⟩, ?_, rfl, hp, ?_, rfl⟩
    · unfold RemoveNode
      simp only [hh]
      simp only [hr, hget, and_self, if_true]
    · intro k
      rw [hmem k, ← hsplit]
  · refine ⟨ch, RemoveNode_miss hh hk, rfl, hinv.1, fun k => ?_, ?_⟩
    · constructor
      · intro h; exact ⟨h, fun e => hk (e ▸ h)⟩
      · exact fun h => h.1
    · have hnone : ch.Nodes key = none := by
        by_contra h
        exact hk ((hinv.2 key).mpr h)
      rw [← hnone, Function.update_eq_self]

theorem RingInv_RemoveNode {ch ch' : ConsistentHash} {node : StorageNode}
    (hinv : RingInv ch) (h : RemoveNode ch node = .ok ch') : RingInv ch' := by
  cases hh : hashFn node.Host ch.TotalSlots with
  | error p => simp [RemoveNode, hh] at h
  | ok key =>
    obtain ⟨ch2, hr, _, hp, hmem, hnodes⟩ := RemoveNode_spec hinv hh
    rw [hr] at h
    injection h with h
    subst h
    refine ⟨hp, fun k => ?_⟩
    rw [hmem k, hnodes, hinv.2 k]
    by_cases e : k = key
    · subst e; simp
    · rw [Function.update_noteq e]; simp [e]

theorem RingInv_ringOf (entries : List (Int × StorageNode)) (totalSlots : Int)
    (hs : (entries.map Prod.fst).Pairwise (· < ·)) : RingInv (ringOf entries totalSlots) := by
  refine ⟨hs, fun k => ?_⟩
  show k ∈ entries.map Prod.fst ↔ entries.lookup k ≠ none
  rw [Ne, List.lookup_eq_none_iff, List.mem_map]
  constructor
  · rintro ⟨p, hp, rfl⟩ hall
    simpa using hall p hp
  · intro h
    by_contra hno
    apply h
    intro p hp
    simp only [bne_iff_ne, ne_eq]
    intro e
    exact hno ⟨p, hp, e.symm⟩

/-- With a free slot in the hash space, `AddNode` returns: the slot it returns is the first
free one met from the base slot on, and any bound above the number of probes will do. -/
theorem AddNode_total (ch : ConsistentHash) (node : StorageNode) {f : Int}
    (hfree : FreeSlot ch f) :
    ∃ (b : Int) (i : Nat), hashFn node.Host ch.TotalSlots = .ok b ∧ (i : Int) < ch.TotalSlots ∧
      ch.Nodes ((b + i) % ch.TotalSlots) = none ∧
      (∀ j : Nat, j < i → ch.Nodes ((b + j) % ch.TotalSlots) ≠ none) ∧
      ∀ fuel : Nat, i < fuel →
        AddNode fuel ch node = .returns ((b + i) % ch.TotalSlots,
          ⟨sortInts (ch.Keys ++ [(b + i) % ch.TotalSlots]),
            Function.update ch.Nodes ((b + i) % ch.TotalSlots) (some node), ch.TotalSlots⟩) := by
  obtain ⟨hf0, hf1, hfn⟩ := hfree
  have hT : 0 < ch.TotalSlots := lt_of_le_of_lt hf0 hf1
  obtain ⟨b, hb⟩ := hashFn_ok node.Host (ne_of_gt hT)
  obtain ⟨hb0, hb1⟩ := hashFn_range hT hb
  obtain ⟨i, hi, hnone, hocc⟩ := probe_least (b := b) hf0 hf1 hfn
  refine ⟨b, i, hb, hi, hnone, hocc, fun fuel hfuel => ?_⟩
  exact AddNode_returns_iff.mpr ⟨b, hb, probe_eq hT fuel b i hb0 hb1 hfuel hnone hocc, rfl⟩

/-- Owner slots after a slot `s` is added to the ring: hash values in the arc `(p, s]` move
to `s`, all others keep their owner slot. -/
theorem owner_after_add {keys keys' : List Int} {s p h o : Int}
    (hmem : ∀ k, k ∈ keys' ↔ k ∈ keys ∨ k = s) (hs : s ∉ keys)
    (hp : IsRingPred keys s p) (ho : IsOwnerSlot keys h o) :
    (InArc p s h → IsOwnerSlot keys' h s) ∧ (¬ InArc p s h → IsOwnerSlot keys' h o) := by
  obtain ⟨hpm, hp⟩ := hp
  obtain ⟨hom, ho⟩ := ho
  have hps : p ≠ s := fun e => hs (e ▸ hpm)
  unfold InArc
  constructor
  · intro harc
    refine ⟨(hmem s).mpr (Or.inr rfl), ?_⟩
    rcases hp with ⟨hlt, hmax⟩ | ⟨hmin, hmax⟩
    · rw [if_pos hlt] at harc
      refine Or.inl ⟨harc.2, fun t ht hht => ?_⟩
      rcases (hmem t).mp ht with ht | rfl
      · by_contra hc
        have := hmax t ht (not_le.mp hc)
        omega
      · exact le_refl _
    · have hsp : s ≤ p := hmin p hpm
      rw [if_neg (by omega)] at harc
      by_cases hhs : h ≤ s
      · refine Or.inl ⟨hhs, fun t ht _ => ?_⟩
        rcases (hmem t).mp ht with ht | rfl
        · exact hmin t ht
        · exact le_refl _
      · have hph : p < h := by
          rcases harc with h1 | h1
          · exact h1
          · exact absurd h1 hhs
        refine Or.inr ⟨fun t ht => ?_, fun t ht => ?_⟩
        · rcases (hmem t).mp ht with ht | rfl
          · have := hmax t ht; omega
          · omega
        · rcases (hmem t).mp ht with ht | rfl
          · exact hmin t ht
          · exact le_refl _
  · intro harc
    refine ⟨(hmem o).mpr (Or.inl hom), ?_⟩
    rcases hp with ⟨hlt, hmax⟩ | ⟨hmin, hmax⟩
    · rw [if_pos hlt] at harc
      rcases ho with ⟨hho, hleast⟩ | ⟨hall, hleast⟩
      · refine Or.inl ⟨hho, fun t ht hht => ?_⟩
        rcases (hmem t).mp ht with ht | rfl
        · exact hleast t ht hht
        · have hhp : h ≤ p := by
            by_contra hc
            exact harc ⟨not_le.mp hc, hht⟩
          have := hleast p hpm hhp
          omega
      · have hph := hall p hpm
        refine Or.inr ⟨fun t ht => ?_, fun t ht => ?_⟩
        · rcases (hmem t).mp ht with ht | rfl
          · exact hall t ht
          · by_contra hc
            exact harc ⟨hph, not_lt.mp hc⟩
        · rcases (hmem t).mp ht with ht | rfl
          · exact hleast t ht
          · have := hleast p hpm; omega
    · have hsp : s ≤ p := hmin p hpm
      rw [if_neg (by omega)] at harc
      have h1 : h ≤ p := by
        by_contra hc
        exact harc (Or.inl (not_le.mp hc))
      have h2 : s < h := by
        by_contra hc
        exact harc (Or.inr (not_lt.mp hc))
      rcases ho with ⟨hho, hleast⟩ | ⟨hall, hleast⟩
      · refine Or.inl ⟨hho, fun t ht hht => ?_⟩
        rcases (hmem t).mp ht with ht | rfl
        · exact hleast t ht hht
        · omega
      · have := hall p hpm
        omega

theorem Assign_after_add {ch : ConsistentHash} {n : StorageNode} {s p h : Int} {k : String}
    (hinv : RingInv ch) (hne : ch.Keys ≠ []) (hnone : ch.Nodes s = none)
    (hp : IsRingPred ch.Keys s p) (hh : hashFn k ch.TotalSlots = .ok h) :
    (¬ InArc p s h →
      Assign ⟨sortInts (ch.Keys ++ [s]), Function.update ch.Nodes s (some n), ch.TotalSlots⟩ k
        = Assign ch k) ∧
    (InArc p s h →
      Assign ⟨sortInts (ch.Keys ++ [s]), Function.update ch.Nodes s (some n), ch.TotalSlots⟩ k
        = .ok (some n)) := by
  obtain ⟨o, ho⟩ := exists_owner ch.Keys h hinv.1 hne
  have hnot : s ∉ ch.Keys := fun hm => (hinv.2 _).mp hm hnone
  obtain ⟨hin, hout⟩ := owner_after_add (fun k => mem_sortInts) hnot hp ho
  have hsorted := sortInts_pairwise hinv.1 hnot
  constructor
  · intro harc
    have e := @Assign_eq_of_owner
      ⟨sortInts (ch.Keys ++ [s]), Function.update ch.Nodes s (some n), ch.TotalSlots⟩
      k h o hsorted hh (hout harc)
    have hos : o ≠ s := fun e => hnot (e ▸ ho.1)
    rw [e, Assign_eq_of_owner hinv.1 hh ho]
    simp only [Function.update_noteq hos]
  · intro harc
    have e := @Assign_eq_of_owner
      ⟨sortInts (ch.Keys ++ [s]), Function.update ch.Nodes s (some n), ch.TotalSlots⟩
      k h s hsorted hh (hin harc)
    rw [e]
    simp only [Function.update_same]

/-- When every slot of the hash space has an entry, the collision loop of `AddNode` never
leaves: whatever the bound on its probes, it is still running. -/
theorem AddNode_running_of_full (ch : ConsistentHash) (node : StorageNode)
    (hT : 0 < ch.TotalSlots)
    (hfull : ∀ k : Int, 0 ≤ k → k < ch.TotalSlots → ch.Nodes k ≠ none) (fuel : Nat) :
    AddNode fuel ch node = .running := by
  obtain ⟨b, hb⟩ := hashFn_ok node.Host (ne_of_gt hT)
  obtain ⟨hb0, hb1⟩ := hashFn_range hT hb
  unfold AddNode
  simp only [hb, probe_full hT hfull fuel b hb0 hb1]

/-- The calls of `main` return the slots 27, 15, 39, 22 and 2 and build `mainRing`. -/
theorem mainRing_built :
    ∃ ring, addNodes 50 (NewConsistentHash 50) mainNodes = some ([27, 15, 39, 22, 2], ring) ∧
      ring.Keys = mainRing.Keys ∧ ring.TotalSlots = mainRing.TotalSlots ∧
      ∀ k ∈ mainRing.Keys, ring.Nodes k = mainRing.Nodes k :=
  ⟨_, rfl, by decide, by decide, by decide⟩

/-! ## Claims -/

/-- C1: on a ring whose `Keys` are strictly increasing and are exactly the key set of `Nodes`,
with at least one node (and a non-zero `TotalSlots`), `Assign item` returns the node stored
at the smallest occupied slot `≥ hashFn item TotalSlots`, and, when no occupied slot is
`≥` that value, the node stored at the smallest occupied slot of the ring. -/
theorem C1_assign_successor (ch : ConsistentHash) (item : String) (hinv : RingInv ch)
    (hne : ch.Keys ≠ []) (hT : ch.TotalSlots ≠ 0) :
    ∃ h s n, hashFn item ch.TotalSlots = .ok h ∧ s ∈ ch.Keys ∧ ch.Nodes s = some n ∧
      Assign ch item = .ok (some n) ∧
      ((∃ t ∈ ch.Keys, h ≤ t) → h ≤ s ∧ ∀ t ∈ ch.Keys, h ≤ t → s ≤ t) ∧
      ((∀ t ∈ ch.Keys, t < h) → ∀ t ∈ ch.Keys, s ≤ t) := by
  obtain ⟨h, hh⟩ := hashFn_ok item hT
  obtain ⟨s, ho⟩ := exists_owner ch.Keys h hinv.1 hne
  have hocc : ch.Nodes s ≠ none := (hinv.2 s).mp ho.1
  obtain ⟨n, hn⟩ := Option.ne_none_iff_exists'.mp hocc
  refine ⟨h, s, n, hh, ho.1, hn, ?_, ?_, ?_⟩
  · rw [Assign_eq_of_owner hinv.1 hh ho, hn]
  · rintro ⟨t, ht, hht⟩
    rcases ho.2 with h1 | h2
    · exact h1
    · have := h2.1 t ht; omega
  · intro hall
    rcases ho.2 with h1 | h2
    · have := hall s ho.1; omega
    · exact h2.2

/-- C1 at the ring of `main` and the file `f2.txt`. -/
theorem C1_assign_successor_witness :
    mainRing.Keys ≠ [] ∧ mainRing.TotalSlots ≠ 0 ∧
    ∃ h s n, hashFn "f2.txt" mainRing.TotalSlots = .ok h ∧ s ∈ mainRing.Keys ∧
      mainRing.Nodes s = some n ∧ Assign mainRing "f2.txt" = .ok (some n) ∧
      ((∃ t ∈ mainRing.Keys, h ≤ t) → h ≤ s ∧ ∀ t ∈ mainRing.Keys, h ≤ t → s ≤ t) ∧
      ((∀ t ∈ mainRing.Keys, t < h) → ∀ t ∈ mainRing.Keys, s ≤ t) :=
  ⟨by decide, by decide,
    C1_assign_successor mainRing "f2.txt" (RingInv_ringOf _ _ (by decide)) (by decide)
      (by decide)⟩

/-- C3: minimal remap on addition.  On a non-empty ring satisfying the invariant and having
a free slot, `AddNode n` returns a slot `s` (for every bound on the probes of at least
`TotalSlots`); if `p` is the occupied slot immediately preceding `s` on the ring, then every
key whose hashed slot is outside the arc `(p, s]` is assigned the same node as before the
addition, and every key whose hashed slot is in the arc is assigned `n`. -/
theorem C3_minimal_remap_on_add (ch : ConsistentHash) (n : StorageNode) (f : Int)
    (hinv : RingInv ch) (hne : ch.Keys ≠ []) (hfree : FreeSlot ch f) :
    ∃ s ch', (∀ fuel : Nat, ch.TotalSlots.toNat ≤ fuel → AddNode fuel ch n = .returns (s, ch')) ∧
      ∀ p, IsRingPred ch.Keys s p → ∀ k : String,
        ∃ h, hashFn k ch.TotalSlots = .ok h ∧
          (¬ InArc p s h → Assign ch' k = Assign ch k) ∧
          (InArc p s h → Assign ch' k = .ok (some n)) := by
  obtain ⟨b, i, _, hi, hnone, _, hret⟩ := AddNode_total ch n hfree
  have hT : 0 < ch.TotalSlots := lt_of_le_of_lt hfree.1 hfree.2.1
  refine ⟨_, _, fun fuel hfuel => hret fuel (by omega), fun p hp k => ?_⟩
  obtain ⟨h, hh⟩ := hashFn_ok k (ne_of_gt hT)
  exact ⟨h, hh, Assign_after_add hinv hne hnone hp hh⟩

/-- C3 at the ring of `main`, to which a sixth node is added. -/
theorem C3_minimal_remap_on_add_witness :
    mainRing.Keys ≠ [] ∧ FreeSlot mainRing 0 ∧
    ∃ s ch', (∀ fuel : Nat, mainRing.TotalSlots.toNat ≤ fuel →
        AddNode fuel mainRing nodeF = .returns (s, ch')) ∧
      ∀ p, IsRingPred mainRing.Keys s p → ∀ k : String,
        ∃ h, hashFn k mainRing.TotalSlots = .ok h ∧
          (¬ InArc p s h → Assign ch' k = Assign mainRing k) ∧
          (InArc p s h → Assign ch' k = .ok (some nodeF)) :=
  ⟨by decide, by decide,
    C3_minimal_remap_on_add mainRing nodeF 0 (RingInv_ringOf _ _ (by decide)) (by decide)
      (by decide)⟩

/-- C4: the ring invariant (`Keys` strictly ascending without duplicate, and a slot in `Keys`
exactly when it has an entry in `Nodes`) holds of `NewConsistentHash totalSlots` for
`totalSlots > 0`, and is preserved by every `AddNode` on a ring with a free slot (which
returns) and by every `RemoveNode` (which returns when `TotalSlots` is not zero). -/
theorem C4_ring_invariant :
    (∀ totalSlots : Int, 0 < totalSlots → RingInv (NewConsistentHash totalSlots)) ∧
    (∀ (ch : ConsistentHash) (n : StorageNode), RingInv ch →
      (∀ (fuel : Nat) (s : Int) (ch' : ConsistentHash),
        AddNode fuel ch n = .returns (s, ch') → RingInv ch') ∧
      (∀ f, FreeSlot ch f → ∃ s ch', RingInv ch' ∧
        ∀ fuel : Nat, ch.TotalSlots.toNat ≤ fuel → AddNode fuel ch n = .returns (s, ch'))) ∧
    (∀ (ch : ConsistentHash) (n : StorageNode), RingInv ch →
      (∀ ch', RemoveNode ch n = .ok ch' → RingInv ch') ∧
      (ch.TotalSlots ≠ 0 → ∃ ch', RemoveNode ch n = .ok ch' ∧ RingInv ch')) := by
  refine ⟨fun T _ => RingInv_new T, fun ch n hinv => ⟨?_, ?_⟩, fun ch n hinv => ⟨?_, ?_⟩⟩
  · intro fuel s ch' h
    exact RingInv_AddNode hinv h
  · intro f hfree
    obtain ⟨b, i, _, hi, _, _, hret⟩ := AddNode_total ch n hfree
    have h1 := hret (i + 1) (Nat.lt_succ_self i)
    exact ⟨_, _, RingInv_AddNode hinv h1, fun fuel hfuel => hret fuel (by omega)⟩
  · intro ch' h
    exact RingInv_RemoveNode hinv h
  · intro hT
    obtain ⟨key, hh⟩ := hashFn_ok n.Host hT
    obtain ⟨ch', hr, _⟩ := RemoveNode_spec hinv hh
    exact ⟨ch', hr, RingInv_RemoveNode hinv hr⟩

/-- C4 at the ring of `main`: a fresh ring of 50 slots, the addition of a sixth node and the
removal of node `A`. -/
theorem C4_ring_invariant_witness :
    RingInv (NewConsistentHash 50) ∧
    (∃ s ch', RingInv ch' ∧
      ∀ fuel : Nat, mainRing.TotalSlots.toNat ≤ fuel →
        AddNode fuel mainRing nodeF = .returns (s, ch')) ∧
    (∃ ch', RemoveNode mainRing nodeA = .ok ch' ∧ RingInv ch') :=
  ⟨C4_ring_invariant.1 50 (by decide),
    (C4_ring_invariant.2.1 mainRing nodeF (RingInv_ringOf _ _ (by decide))).2 0 (by decide),
    (C4_ring_invariant.2.2 mainRing nodeA (RingInv_ringOf _ _ (by decide))).2 (by decide)⟩

/-- C6: linear probing.  On a ring with a free slot, with `b = hashFn n.Host TotalSlots`,
`AddNode n` returns the slot `(b + i) % TotalSlots` for the least `i ≥ 0` such that this slot
had no entry before the call: every slot `(b + j) % TotalSlots` with `j < i` was occupied, and
the slot returned is `b` itself when `b` was free. -/
theorem C6_linear_probing (ch : ConsistentHash) (n : StorageNode) (f : Int)
    (hfree : FreeSlot ch f) :
    ∃ (b : Int) (i : Nat), hashFn n.Host ch.TotalSlots = .ok b ∧ (i : Int) < ch.TotalSlots ∧
      ch.Nodes ((b + i) % ch.TotalSlots) = none ∧
      (∀ j : Nat, j < i → ch.Nodes ((b + j) % ch.TotalSlots) ≠ none) ∧
      (ch.Nodes b = none → (b + i) % ch.TotalSlots = b) ∧
      ∀ fuel : Nat, ch.TotalSlots.toNat ≤ fuel →
        ∃ ch', AddNode fuel ch n = .returns ((b + i) % ch.TotalSlots, ch') := by
  obtain ⟨b, i, hb, hi, hnone, hocc, hret⟩ := AddNode_total ch n hfree
  have hT : 0 < ch.TotalSlots := lt_of_le_of_lt hfree.1 hfree.2.1
  obtain ⟨hb0, hb1⟩ := hashFn_range hT hb
  refine ⟨b, i, hb, hi, hnone, hocc, fun hbfree => ?_, fun fuel hfuel => ⟨_, hret fuel (by omega)⟩⟩
  have hi0 : i = 0 := by
    by_contra hne
    have := hocc 0 (Nat.pos_of_ne_zero hne)
    simp only [Nat.cast_zero, add_zero] at this
    rw [Int.emod_eq_of_lt hb0 hb1] at this
    exact this hbfree
  subst hi0
  simp only [Nat.cast_zero, add_zero]
  exact Int.emod_eq_of_lt hb0 hb1

/-- C6 at the ring of 10 slots holding node `D` at slot 2, to which node `E` (base slot 2)
is added. -/
theorem C6_linear_probing_witness :
    FreeSlot (ringOf [(2, nodeD)] 10) 0 ∧
    ∃ (b : Int) (i : Nat), hashFn nodeE.Host (ringOf [(2, nodeD)] 10).TotalSlots = .ok b ∧
      (i : Int) < (ringOf [(2, nodeD)] 10).TotalSlots ∧
      (ringOf [(2, nodeD)] 10).Nodes ((b + i) % (ringOf [(2, nodeD)] 10).TotalSlots) = none ∧
      (∀ j : Nat, j < i →
        (ringOf [(2, nodeD)] 10).Nodes ((b + j) % (ringOf [(2, nodeD)] 10).TotalSlots) ≠ none) ∧
      ((ringOf [(2, nodeD)] 10).Nodes b = none →
        (b + i) % (ringOf [(2, nodeD)] 10).TotalSlots = b) ∧
      ∀ fuel : Nat, (ringOf [(2, nodeD)] 10).TotalSlots.toNat ≤ fuel →
        ∃ ch', AddNode fuel (ringOf [(2, nodeD)] 10) nodeE
          = .returns ((b + i) % (ringOf [(2, nodeD)] 10).TotalSlots, ch') :=
  ⟨by decide, C6_linear_probing (ringOf [(2, nodeD)] 10) nodeE 0 (by decide)⟩

/-- C2 (failing input): the five nodes of `main` are added to an empty ring of 10 slots; node
`E` collides with `D` at base slot 2 and is placed at slot 3.  `RemoveNode E` then deletes
slot 2, which is the slot of `D`: a key of `D` changes its owner although it was not assigned
to `E`, and a key of `E` is still assigned to `E`, which remains in the ring. -/
theorem C2_remove_remaps_foreign_keys :
    ∃ ring ring', addNodes 10 (NewConsistentHash 10) mainNodes = some ([7, 5, 9, 2, 3], ring) ∧
      ring.Keys = [2, 3, 5, 7, 9] ∧
      Assign ring "f1ejbfihwefnbeiuweboucweoie.txt" = .ok (some nodeD) ∧
      Assign ring "n1" = .ok (some nodeE) ∧
      RemoveNode ring nodeE = .ok ring' ∧
      ring'.Keys = [3, 5, 7, 9] ∧
      Assign ring' "f1ejbfihwefnbeiuweboucweoie.txt" = .ok (some nodeE) ∧
      Assign ring' "n1" = .ok (some nodeE) :=
  ⟨_, _, rfl, by decide, by decide, by decide, rfl, by decide, by decide, by decide⟩

/-- C5 (failing input): nodes `D` and `E` both hash to base slot 2 of a ring of 10 slots; they
are added at slots 2 and 3.  `RemoveNode E` removes slot 2, the slot of `D`, from `Keys` and
`Nodes`, and leaves `E` at slot 3. -/
theorem C5_remove_hits_colliding_node :
    hashFn nodeD.Host 10 = .ok 2 ∧ hashFn nodeE.Host 10 = .ok 2 ∧
    ∃ c1 c2 c3, AddNode 10 (NewConsistentHash 10) nodeD = .returns (2, c1) ∧
      AddNode 10 c1 nodeE = .returns (3, c2) ∧
      c2.Keys = [2, 3] ∧ c2.Nodes 2 = some nodeD ∧ c2.Nodes 3 = some nodeE ∧
      RemoveNode c2 nodeE = .ok c3 ∧
      c3.Keys = [3] ∧ c3.Nodes 2 = none ∧ c3.Nodes 3 = some nodeE :=
  ⟨by decide, by decide, _, _, _, rfl, rfl, by decide, by decide, by decide, rfl, by decide,
    by decide, by decide⟩

/-- C7 (failing input): on a ring all of whose slots are occupied, `AddNode` reports no
error: its collision loop is still running after any number of probes. -/
theorem C7_full_ring_never_returns (ch : ConsistentHash) (n : StorageNode)
    (hT : 0 < ch.TotalSlots)
    (hfull : ∀ k : Int, 0 ≤ k → k < ch.TotalSlots → ch.Nodes k ≠ none) :
    ∀ fuel : Nat, AddNode fuel ch n = .running :=
  fun fuel => AddNode_running_of_full ch n hT hfull fuel

/-- C7 at `totalSlots = 2`: nodes `A` and `B` are added (slots 1 and 0), and the third
`AddNode` has not returned after 1000 probes. -/
theorem C7_full_ring_never_returns_witness :
    ∃ ring, addNodes 2 (NewConsistentHash 2) [nodeA, nodeB] = some ([1, 0], ring) ∧
      ring.Keys = [0, 1] ∧ AddNode 1000 ring nodeC = .running :=
  ⟨_, rfl, by decide,
    C7_full_ring_never_returns _ nodeC (by decide)
      (by intro k h0 h1; have h2 : k < 2 := h1; interval_cases k <;> decide) 1000⟩

/-- C8 (failing input): on a ring with no nodes `Assign` returns no error value: it indexes
the empty `Keys` and panics with an index out of range (or, when `TotalSlots` is zero, panics
in `hashFn` on the division). -/
theorem C8_assign_empty_panics (ch : ConsistentHash) (item : String) (hk : ch.Keys = []) :
    Assign ch item =
      .error (if ch.TotalSlots = 0 then .integerDivideByZero else .indexOutOfRange) := by
  by_cases hT : ch.TotalSlots = 0
  · unfold Assign
    rw [hT, hashFn_zero]
    simp
  · obtain ⟨h, hh⟩ := hashFn_ok item hT
    unfold Assign
    simp [hh, hk, hT, SearchInts, searchLoop]

/-- C8 at the fresh ring of 50 slots. -/
theorem C8_assign_empty_panics_witness :
    Assign (NewConsistentHash 50) "f1.txt" = .error .indexOutOfRange :=
  C8_assign_empty_panics (NewConsistentHash 50) "f1.txt" rfl

/-- C9 (counterexample): node `A` is added twice to a ring of 50 slots.  The second `AddNode`
does not fail: it returns the next slot, 28, `Keys` grows from `[27]` to `[27, 28]`, and `A`
is then stored under both slots. -/
theorem C9_duplicate_add_counterexample :
    ∃ c1 c2, AddNode 50 (NewConsistentHash 50) nodeA = .returns (27, c1) ∧
      c1.Keys = [27] ∧ c1.Nodes 27 = some nodeA ∧
      AddNode 50 c1 nodeA = .returns (28, c2) ∧
      c2.Keys = [27, 28] ∧ c2.Keys ≠ c1.Keys ∧
      c2.Nodes 27 = some nodeA ∧ c2.Nodes 28 = some nodeA :=
  ⟨_, _, rfl, by decide, by decide, rfl, by decide, by decide, by decide, by decide⟩

/-- C9 (amended): on a ring with a free slot, `AddNode n` of a node `n` already stored at a
slot `t` does not fail: it returns a slot `s ≠ t` that was free, adds `s` to `Keys` and
stores `n` at `s`, every other entry of `Nodes` staying as it was; `n` is then stored under
both `t` and `s`. -/
theorem C9_duplicate_add_stores_again (ch : ConsistentHash) (n : StorageNode) (f t : Int)
    (hfree : FreeSlot ch f) (hpres : ch.Nodes t = some n) :
    ∃ s ch', (∀ fuel : Nat, ch.TotalSlots.toNat ≤ fuel → AddNode fuel ch n = .returns (s, ch')) ∧
      s ≠ t ∧ ch.Nodes s = none ∧ ch'.Nodes s = some n ∧ ch'.Nodes t = some n ∧
      (∀ k, k ≠ s → ch'.Nodes k = ch.Nodes k) ∧
      (∀ k, k ∈ ch'.Keys ↔ k ∈ ch.Keys ∨ k = s) := by
  obtain ⟨b, i, _, hi, hnone, _, hret⟩ := AddNode_total ch n hfree
  have hT : 0 < ch.TotalSlots := lt_of_le_of_lt hfree.1 hfree.2.1
  have hst : (b + i) % ch.TotalSlots ≠ t := by
    intro e
    rw [e, hpres] at hnone
    cases hnone
  refine ⟨_, _, fun fuel hfuel => hret fuel (by omega), hst, hnone, ?_, ?_, ?_, ?_⟩
  · exact Function.update_same _ _ _
  · show Function.update ch.Nodes _ (some n) t = some n
    rw [Function.update_noteq (Ne.symm hst), hpres]
  · intro k hk
    exact Function.update_noteq hk _ _
  · intro k
    exact mem_sortInts

/-- C9 (amended) at the ring of `main`, to which node `A` is added again. -/
theorem C9_duplicate_add_stores_again_witness :
    FreeSlot mainRing 0 ∧ mainRing.Nodes 27 = some nodeA ∧
    ∃ s ch', (∀ fuel : Nat, mainRing.TotalSlots.toNat ≤ fuel →
        AddNode fuel mainRing nodeA = .returns (s, ch')) ∧
      s ≠ 27 ∧ mainRing.Nodes s = none ∧ ch'.Nodes s = some nodeA ∧
      ch'.Nodes 27 = some nodeA ∧
      (∀ k, k ≠ s → ch'.Nodes k = mainRing.Nodes k) ∧
      (∀ k, k ∈ ch'.Keys ↔ k ∈ mainRing.Keys ∨ k = s) :=
  ⟨by decide, by decide,
    C9_duplicate_add_stores_again mainRing nodeA 0 27 (by decide) (by decide)⟩

/-- C10 (counterexample): node `E` is stored in neither ring.  On the fresh ring of 10 slots
`RemoveNode E` returns normally, with no error; on the ring holding only `D` at slot 2, the
base slot of `E`, it returns normally as well and has removed `D`. -/
theorem C10_missing_remove_counterexample :
    (∃ ch', RemoveNode (NewConsistentHash 10) nodeE = .ok ch' ∧ ch'.Keys = []) ∧
    (ringOf [(2, nodeD)] 10).Nodes 2 = some nodeD ∧
    (∀ s, (ringOf [(2, nodeD)] 10).Nodes s ≠ some nodeE) ∧
    ∃ ch', RemoveNode (ringOf [(2, nodeD)] 10) nodeE = .ok ch' ∧
      ch'.Keys = [] ∧ ch'.Nodes 2 = none := by
  refine ⟨⟨_, rfl, by decide⟩, by decide, ?_, ⟨_, rfl, by decide, by decide⟩⟩
  intro s
  show List.lookup s [(2, nodeD)] ≠ some nodeE
  simp only [List.lookup]
  split <;> simp [nodeD, nodeE]

/-- C10 (amended): when the base slot `b = hashFn n.Host TotalSlots` of a node `n` that is
not stored in the ring is not in `Keys`, `RemoveNode n` reports no error: it returns normally
and leaves the ring as it was. -/
theorem C10_missing_remove_is_noop (ch : ConsistentHash) (n : StorageNode) (b : Int)
    (_habsent : ∀ s, ch.Nodes s ≠ some n)
    (hb : hashFn n.Host ch.TotalSlots = .ok b) (hfree : b ∉ ch.Keys) :
    RemoveNode ch n = .ok ch :=
  RemoveNode_miss hb hfree

/-- C10 (amended) at the ring of `main` and the node `F`, whose base slot 17 is free. -/
theorem C10_missing_remove_is_noop_witness :
    hashFn nodeF.Host mainRing.TotalSlots = .ok 17 ∧ (17 : Int) ∉ mainRing.Keys ∧
    RemoveNode mainRing nodeF = .ok mainRing :=
  ⟨by decide, by decide,
    C10_missing_remove_is_noop mainRing nodeF 17
      (by
        intro s
        show List.lookup s [(2, nodeE), (15, nodeB), (22, nodeD), (27, nodeA), (39, nodeC)]
          ≠ some nodeF
        simp only [List.lookup]
        repeat' split
        all_goals simp [nodeA, nodeB, nodeC, nodeD, nodeE, nodeF])
      (by decide) (by decide)⟩

/-! ## Further facts for the remaining claims -/

theorem probe_range {nodes : Int → Option StorageNode} {totalSlots : Int}
    (hT : 0 < totalSlots) :
    ∀ (fuel : Nat) (key s : Int), 0 ≤ key → key < totalSlots →
      probe nodes totalSlots fuel key = some s → 0 ≤ s ∧ s < totalSlots := by
  intro fuel
  induction fuel with
  | zero => intro key s _ _ h; simp [probe] at h
  | succ fuel ih =>
    intro key s h0 h1 h
    unfold probe at h
    by_cases hk : (nodes key).isNone
    · simp only [hk, if_true] at h
      injection h with h
      subst h
      exact ⟨h0, h1⟩
    · simp only [hk] at h
      rw [Int.tmod_eq_emod (by omega) (le_of_lt hT)] at h
      exact ih _ _ (Int.emod_nonneg _ (ne_of_gt hT)) (Int.emod_lt_of_pos _ hT) h

/-- While the slots met from `key` on are all taken, the loop has not left. -/
theorem probe_none {nodes : Int → Option StorageNode} {totalSlots : Int}
    (hT : 0 < totalSlots) :
    ∀ (fuel : Nat) (key : Int), 0 ≤ key → key < totalSlots →
      (∀ j : Nat, j < fuel → nodes ((key + j) % totalSlots) ≠ none) →
      probe nodes totalSlots fuel key = none := by
  intro fuel
  induction fuel with
  | zero => intro key _ _ _; rfl
  | succ fuel ih =>
    intro key h0 h1 hocc
    unfold probe
    have hk : nodes key ≠ none := by
      have := hocc 0 (Nat.succ_pos _)
      simp only [Nat.cast_zero, add_zero] at this
      rwa [Int.emod_eq_of_lt h0 h1] at this
    have hk2 : ¬ (nodes key).isNone = true := by
      rw [Option.isNone_iff_eq_none]; exact hk
    simp only [hk2]
    rw [Int.tmod_eq_emod (by omega) (le_of_lt hT)]
    have hr := ih ((key + 1) % totalSlots) (Int.emod_nonneg _ (ne_of_gt hT))
      (Int.emod_lt_of_pos _ hT) (by
        intro j hj
        have := hocc (j + 1) (by omega)
        rw [Int.emod_add_emod]
        have e : key + 1 + (j : Int) = key + ((j + 1 : Nat) : Int) := by push_cast; ring
        rw [e]
        exact this)
    simpa using hr

/-- The first byte of a digest is a byte. -/
theorem firstByte_lt (key : String) :
    (Sha256.sum (Sha256.stringBytes key)).headD 0 < 256 := by
  unfold Sha256.sum
  cases Sha256.digestWords (Sha256.stringBytes key) with
  | nil => simp
  | cons w ws =>
    simp only [List.flatMap_cons, List.cons_append, List.headD_cons]
    exact Nat.mod_lt _ (by decide)

theorem hashFn_eq (key : String) {totalSlots : Int} (hT : 0 < totalSlots) :
    hashFn key totalSlots =
      .ok (((Sha256.sum (Sha256.stringBytes key)).headD 0 : Nat) % totalSlots) := by
  simp only [hashFn, ne_of_gt hT, if_false]
  rw [Int.tmod_eq_emod (Int.ofNat_zero_le _) (le_of_lt hT)]

theorem hashFn_lt_256 {key : String} {totalSlots h : Int} (hT : 0 < totalSlots)
    (hh : hashFn key totalSlots = .ok h) : 0 ≤ h ∧ h < 256 := by
  rw [hashFn_eq key hT] at hh
  injection hh with hh
  subst hh
  have hb := firstByte_lt key
  refine ⟨Int.emod_nonneg _ (ne_of_gt hT), ?_⟩
  by_cases hlt : (((Sha256.sum (Sha256.stringBytes key)).headD 0 : Nat) : Int) < totalSlots
  · rw [Int.emod_eq_of_lt (Int.ofNat_zero_le _) hlt]
    omega
  · have := Int.emod_lt_of_pos (((Sha256.sum (Sha256.stringBytes key)).headD 0 : Nat) : Int) hT
    omega

theorem Reachable_range {totalSlots : Int} (hT : 0 < totalSlots) {ch : ConsistentHash}
    (hr : Reachable totalSlots ch) :
    ch.TotalSlots = totalSlots ∧ ∀ k ∈ ch.Keys, 0 ≤ k ∧ k < totalSlots := by
  induction hr with
  | new => exact ⟨rfl, fun k hk => by simp [NewConsistentHash] at hk⟩
  | add _ hadd ih =>
    obtain ⟨b, hb, hp, rfl⟩ := AddNode_returns_iff.mp hadd
    obtain ⟨hts, hkeys⟩ := ih
    refine ⟨hts, fun k hk => ?_⟩
    rcases mem_sortInts.mp hk with h | h
    · exact hkeys k h
    · subst h
      rw [hts] at hb hp
      obtain ⟨hb0, hb1⟩ := hashFn_range hT hb
      exact probe_range hT _ _ _ hb0 hb1 hp
  | @remove ch ch' node _ hrem ih =>
    obtain ⟨hts, hkeys⟩ := ih
    unfold RemoveNode at hrem
    cases hh : hashFn node.Host ch.TotalSlots with
    | error p => simp [hh] at hrem
    | ok key =>
      simp only [hh] at hrem
      split at hrem
      · injection hrem with hrem
        subst hrem
        refine ⟨hts, fun k hk => ?_⟩
        rcases List.mem_append.mp hk with h | h
        · exact hkeys k (List.mem_of_mem_take h)
        · exact hkeys k (List.mem_of_mem_drop h)
      · injection hrem with hrem
        subst hrem
        exact ⟨hts, hkeys⟩

/-- With fewer occupied slots than `TotalSlots`, some slot of the hash space is free. -/
theorem exists_free_of_card_lt (ch : ConsistentHash) (occ : Finset Int)
    (hocc : ∀ k, ch.Nodes k ≠ none ↔ k ∈ occ) (hcard : (occ.card : Int) < ch.TotalSlots) :
    ∃ f, FreeSlot ch f := by
  by_contra hno
  have hsub : Finset.Ico (0 : Int) ch.TotalSlots ⊆ occ := by
    intro f hf
    rw [Finset.mem_Ico] at hf
    by_contra hnot
    apply hno
    refine ⟨f, hf.1, hf.2, ?_⟩
    by_contra h
    exact hnot ((hocc f).mp h)
  have hle := Finset.card_le_card hsub
  rw [Int.card_Ico] at hle
  omega

theorem fnv1a_lt (bytes : List Nat) : Baseline.fnv1a bytes < 2 ^ 32 := by
  unfold Baseline.fnv1a
  have : ∀ (l : List Nat) (h : Nat), h < 2 ^ 32 →
      l.foldl (fun h b => (h ^^^ b) * 16777619 % 2 ^ 32) h < 2 ^ 32 := by
    intro l
    induction l with
    | nil => intro h hh; exact hh
    | cons b l ih =>
      intro h _
      exact ih _ (Nat.mod_lt _ (by decide))
  exact this bytes _ (by decide)

/-- The FNV-1a hash of `a` is the published test value. -/
theorem fnv1a_a : Baseline.fnv1a (Sha256.stringBytes "a") = 0xe40c292c := by
  decide


/-- C11: total coverage.  On a ring satisfying the invariant, with at least one node and
`TotalSlots > 0`, `Assign item` indexes `Keys` within bounds, finds an entry in `Nodes` for
the slot selected, and returns that node, which is stored in the ring. -/
theorem C11_total_coverage (ch : ConsistentHash) (item : String) (hinv : RingInv ch)
    (hne : ch.Keys ≠ []) (hT : 0 < ch.TotalSlots) :
    ∃ (h : Int) (index : Nat) (s : Int) (n : StorageNode),
      hashFn item ch.TotalSlots = .ok h ∧
      index = (if SearchInts ch.Keys h = ch.Keys.length then 0 else SearchInts ch.Keys h) ∧
      index < ch.Keys.length ∧ ch.Keys[index]? = some s ∧ ch.Nodes s = some n ∧
      Assign ch item = .ok (some n) := by
  obtain ⟨h, hh⟩ := hashFn_ok item (ne_of_gt hT)
  obtain ⟨s, hidx, ho⟩ := owner_of_search ch.Keys h hinv.1 hne
  obtain ⟨n, hn⟩ := Option.ne_none_iff_exists'.mp ((hinv.2 s).mp ho.1)
  refine ⟨h, _, s, n, hh, rfl, ?_, hidx, hn, ?_⟩
  · by_contra hge
    rw [List.getElem?_eq_none (not_lt.mp hge)] at hidx
    cases hidx
  · rw [Assign_eq_of_owner hinv.1 hh ho, hn]

/-- C11 at the ring of `main` and the file `f3.txt`. -/
theorem C11_total_coverage_witness :
    mainRing.Keys ≠ [] ∧ 0 < mainRing.TotalSlots ∧
    ∃ (h : Int) (index : Nat) (s : Int) (n : StorageNode),
      hashFn "f3.txt" mainRing.TotalSlots = .ok h ∧
      index = (if SearchInts mainRing.Keys h = mainRing.Keys.length then 0
        else SearchInts mainRing.Keys h) ∧
      index < mainRing.Keys.length ∧ mainRing.Keys[index]? = some s ∧
      mainRing.Nodes s = some n ∧ Assign mainRing "f3.txt" = .ok (some n) :=
  ⟨by decide, by decide,
    C11_total_coverage mainRing "f3.txt" (RingInv_ringOf _ _ (by decide)) (by decide)
      (by decide)⟩

/-- C12 (failing input): on a ring of 10 slots holding `D` at slot 2, node `E` (base slot 2)
is added at slot 3.  `RemoveNode E` deletes slot 2, the slot of `D`, and leaves `E` at slot
3; node `G` (base slot 2) is then added at slot 2, not at the slot 3 that `E` was given. -/
theorem C12_round_trip_lands_elsewhere :
    hashFn nodeE.Host 10 = .ok 2 ∧ hashFn nodeG.Host 10 = .ok 2 ∧
    ∃ c0 c1 c2 c3, AddNode 10 (NewConsistentHash 10) nodeD = .returns (2, c0) ∧
      AddNode 10 c0 nodeE = .returns (3, c1) ∧
      RemoveNode c1 nodeE = .ok c2 ∧
      c2.Keys = [3] ∧ c2.Nodes 2 = none ∧ c2.Nodes 3 = some nodeE ∧
      AddNode 10 c2 nodeG = .returns (2, c3) ∧
      c3.Keys = [2, 3] ∧ c3.Nodes 2 = some nodeG ∧ c3.Nodes 3 = some nodeE :=
  ⟨by decide, by decide, _, _, _, _, rfl, rfl, rfl, by decide, by decide, by decide, rfl,
    by decide, by decide, by decide⟩

/-- C13 (counterexample): over 1000 slots `hashFn` reduces the first byte of the digest only.
For the key `abc` it returns 186, the byte `0xba`, where the first 64 bits of the digest
reduce to 74; and no key at all is given a slot `≥ 256`. -/
theorem C13_single_byte_counterexample :
    hashFn "abc" 1000 = .ok 186 ∧ wideHash "abc" 1000 = 74 ∧
    ¬ ∃ (key : String) (h : Int), hashFn key 1000 = .ok h ∧ 256 ≤ h := by
  refine ⟨by decide, by decide, ?_⟩
  rintro ⟨key, h, hh, hge⟩
  have := (hashFn_lt_256 (by decide) hh).2
  omega

/-- C13 (amended): for `totalSlots > 0`, `hashFn key totalSlots` is the first byte of the
SHA-256 digest of the key reduced modulo `totalSlots`; its result is below 256 whatever
`totalSlots` is, and is the byte itself when `totalSlots ≥ 256`. -/
theorem C13_single_byte_hash (key : String) (totalSlots : Int) (hT : 0 < totalSlots) :
    (Sha256.sum (Sha256.stringBytes key)).headD 0 < 256 ∧
    hashFn key totalSlots =
      .ok (((Sha256.sum (Sha256.stringBytes key)).headD 0 : Nat) % totalSlots) ∧
    (∀ h, hashFn key totalSlots = .ok h → 0 ≤ h ∧ h < 256) ∧
    (256 ≤ totalSlots →
      hashFn key totalSlots = .ok ((Sha256.sum (Sha256.stringBytes key)).headD 0 : Nat)) := by
  have hb := firstByte_lt key
  refine ⟨hb, hashFn_eq key hT, fun h hh => hashFn_lt_256 hT hh, fun hge => ?_⟩
  rw [hashFn_eq key hT, Int.emod_eq_of_lt (Int.ofNat_zero_le _) (by omega)]

/-- C13 (amended) at the key `abc` and 1000 slots. -/
theorem C13_single_byte_hash_witness :
    (Sha256.sum (Sha256.stringBytes "abc")).headD 0 < 256 ∧
    hashFn "abc" 1000 =
      .ok (((Sha256.sum (Sha256.stringBytes "abc")).headD 0 : Nat) % 1000) ∧
    (∀ h, hashFn "abc" 1000 = .ok h → 0 ≤ h ∧ h < 256) ∧
    ((256 : Int) ≤ 1000 →
      hashFn "abc" 1000 = .ok ((Sha256.sum (Sha256.stringBytes "abc")).headD 0 : Nat)) :=
  C13_single_byte_hash "abc" 1000 (by decide)

/-- C14: effect and frame of `AddNode`.  On a ring satisfying the invariant with a free slot,
`AddNode n` returns a slot `s` that had no entry and was not in `Keys`; afterwards
`Nodes[s] = n` and `s` is in `Keys`, every slot occupied before is still occupied by the same
node, no slot other than `s` becomes occupied, and `TotalSlots` is unchanged. -/
theorem C14_add_effect_and_frame (ch : ConsistentHash) (n : StorageNode) (f : Int)
    (hinv : RingInv ch) (hfree : FreeSlot ch f) :
    ∃ s ch', (∀ fuel : Nat, ch.TotalSlots.toNat ≤ fuel → AddNode fuel ch n = .returns (s, ch')) ∧
      ch.Nodes s = none ∧ s ∉ ch.Keys ∧
      ch'.Nodes s = some n ∧ s ∈ ch'.Keys ∧
      (∀ k m, ch.Nodes k = some m → ch'.Nodes k = some m) ∧
      (∀ k, k ∈ ch.Keys → k ∈ ch'.Keys) ∧
      (∀ k, k ≠ s → ch'.Nodes k = ch.Nodes k) ∧
      (∀ k, k ∈ ch'.Keys → k ≠ s → k ∈ ch.Keys) ∧
      ch'.TotalSlots = ch.TotalSlots := by
  obtain ⟨b, i, _, hi, hnone, _, hret⟩ := AddNode_total ch n hfree
  have hT : 0 < ch.TotalSlots := lt_of_le_of_lt hfree.1 hfree.2.1
  have hnot : (b + i) % ch.TotalSlots ∉ ch.Keys := fun hm => (hinv.2 _).mp hm hnone
  refine ⟨_, _, fun fuel hfuel => hret fuel (by omega), hnone, hnot, ?_, ?_, ?_, ?_, ?_, ?_,
    rfl⟩
  · exact Function.update_same _ _ _
  · exact mem_sortInts.mpr (Or.inr rfl)
  · intro k m hk
    have hks : k ≠ (b + i) % ch.TotalSlots := by
      intro e
      rw [e, hnone] at hk
      cases hk
    show Function.update ch.Nodes _ (some n) k = some m
    rw [Function.update_noteq hks, hk]
  · intro k hk
    exact mem_sortInts.mpr (Or.inl hk)
  · intro k hk
    exact Function.update_noteq hk _ _
  · intro k hk hks
    rcases mem_sortInts.mp hk with h | h
    · exact h
    · exact absurd h hks

/-- C14 at the ring of `main`, to which node `G` is added. -/
theorem C14_add_effect_and_frame_witness :
    FreeSlot mainRing 0 ∧
    ∃ s ch', (∀ fuel : Nat, mainRing.TotalSlots.toNat ≤ fuel →
        AddNode fuel mainRing nodeG = .returns (s, ch')) ∧
      mainRing.Nodes s = none ∧ s ∉ mainRing.Keys ∧
      ch'.Nodes s = some nodeG ∧ s ∈ ch'.Keys ∧
      (∀ k m, mainRing.Nodes k = some m → ch'.Nodes k = some m) ∧
      (∀ k, k ∈ mainRing.Keys → k ∈ ch'.Keys) ∧
      (∀ k, k ≠ s → ch'.Nodes k = mainRing.Nodes k) ∧
      (∀ k, k ∈ ch'.Keys → k ≠ s → k ∈ mainRing.Keys) ∧
      ch'.TotalSlots = mainRing.TotalSlots :=
  ⟨by decide,
    C14_add_effect_and_frame mainRing nodeG 0 (RingInv_ringOf _ _ (by decide)) (by decide)⟩

/-- C15: determinism of lookup.  A call of `Assign` leaves `Keys`, `Nodes` and `TotalSlots`
as they were, so a second call on the state it leaves returns the same result; and the
result is a function of the key, of `Keys`, of the entries of `Nodes` at the slots of `Keys`
and of `TotalSlots`: on two ring states that agree on these `Assign` returns the same. -/
theorem C15_assign_deterministic (ch ch' : ConsistentHash) (item : String)
    (hk : ch.Keys = ch'.Keys) (hn : ∀ k ∈ ch.Keys, ch.Nodes k = ch'.Nodes k)
    (ht : ch.TotalSlots = ch'.TotalSlots) :
    (∀ r ch1, AssignCall ch item = .ok (r, ch1) →
      ch1 = ch ∧ AssignCall ch1 item = .ok (r, ch1)) ∧
    Assign ch item = Assign ch' item := by
  constructor
  · intro r ch1 h
    unfold AssignCall at h
    cases ha : Assign ch item with
    | error p => simp [ha] at h
    | ok node =>
      simp only [ha, Except.ok.injEq, Prod.mk.injEq] at h
      obtain ⟨rfl, rfl⟩ := h
      refine ⟨rfl, ?_⟩
      unfold AssignCall
      simp only [ha]
  · unfold Assign
    rw [← ht, ← hk]
    cases hashFn item ch.TotalSlots with
    | error p => rfl
    | ok key =>
      simp only
      cases hs : ch.Keys[if SearchInts ch.Keys key = ch.Keys.length then 0
          else SearchInts ch.Keys key]? with
      | none => rfl
      | some slot =>
        simp only
        rw [hn slot (List.getElem?_mem hs)]

/-- C15 at the ring of `main` and a state that differs from it at the unused slot 40 only. -/
theorem C15_assign_deterministic_witness :
    (∀ r ch1, AssignCall mainRing "f5.txt" = .ok (r, ch1) →
      ch1 = mainRing ∧ AssignCall ch1 "f5.txt" = .ok (r, ch1)) ∧
    Assign mainRing "f5.txt"
      = Assign ⟨mainRing.Keys, fun k => if k = 40 then some nodeF else mainRing.Nodes k,
          mainRing.TotalSlots⟩ "f5.txt" :=
  C15_assign_deterministic mainRing
    ⟨mainRing.Keys, fun k => if k = 40 then some nodeF else mainRing.Nodes k,
      mainRing.TotalSlots⟩ "f5.txt" rfl (by decide) rfl

/-- C17: slot range.  For `totalSlots > 0`, `hashFn key totalSlots` returns a value in
`[0, totalSlots)`; and in every ring reachable from `NewConsistentHash totalSlots` by
`AddNode` and `RemoveNode`, `TotalSlots` is `totalSlots`, every element of `Keys` lies in
`[0, totalSlots)`, and so does every slot `AddNode` returns. -/
theorem C17_slot_range (totalSlots : Int) (hT : 0 < totalSlots) :
    (∀ key : String, ∃ h, hashFn key totalSlots = .ok h ∧ 0 ≤ h ∧ h < totalSlots) ∧
    ∀ ch, Reachable totalSlots ch →
      ch.TotalSlots = totalSlots ∧ (∀ k ∈ ch.Keys, 0 ≤ k ∧ k < totalSlots) ∧
      ∀ (fuel : Nat) (n : StorageNode) (s : Int) (ch' : ConsistentHash),
        AddNode fuel ch n = .returns (s, ch') → 0 ≤ s ∧ s < totalSlots := by
  refine ⟨fun key => ?_, fun ch hr => ?_⟩
  · obtain ⟨h, hh⟩ := hashFn_ok key (ne_of_gt hT)
    exact ⟨h, hh, hashFn_range hT hh⟩
  · obtain ⟨hts, hkeys⟩ := Reachable_range hT hr
    refine ⟨hts, hkeys, fun fuel n s ch' hadd => ?_⟩
    obtain ⟨b, hb, hp, _⟩ := AddNode_returns_iff.mp hadd
    rw [hts] at hb hp
    obtain ⟨hb0, hb1⟩ := hashFn_range hT hb
    exact probe_range hT _ _ _ hb0 hb1 hp

/-- C17 at 50 slots, the size of the ring of `main`. -/
theorem C17_slot_range_witness :
    (∀ key : String, ∃ h, hashFn key 50 = .ok h ∧ 0 ≤ h ∧ h < 50) ∧
    ∀ ch, Reachable 50 ch →
      ch.TotalSlots = 50 ∧ (∀ k ∈ ch.Keys, 0 ≤ k ∧ k < 50) ∧
      ∀ (fuel : Nat) (n : StorageNode) (s : Int) (ch' : ConsistentHash),
        AddNode fuel ch n = .returns (s, ch') → 0 ≤ s ∧ s < 50 :=
  C17_slot_range 50 (by decide)

/-- C18: probe termination.  On a ring with `TotalSlots > 0` whose occupied slots number
fewer than `TotalSlots`, the collision loop of `AddNode` leaves after exactly `i + 1` tests
of a slot, for an `i < TotalSlots`: it is still running after `i` tests or fewer, and has
returned after any greater number, `TotalSlots` among them. -/
theorem C18_probe_terminates (ch : ConsistentHash) (n : StorageNode) (occ : Finset Int)
    (hT : 0 < ch.TotalSlots) (hocc : ∀ k, ch.Nodes k ≠ none ↔ k ∈ occ)
    (hcard : (occ.card : Int) < ch.TotalSlots) :
    ∃ (i : Nat) (s : Int) (ch' : ConsistentHash), (i : Int) < ch.TotalSlots ∧
      (∀ fuel : Nat, fuel ≤ i → AddNode fuel ch n = .running) ∧
      (∀ fuel : Nat, i < fuel → AddNode fuel ch n = .returns (s, ch')) ∧
      AddNode ch.TotalSlots.toNat ch n = .returns (s, ch') := by
  obtain ⟨f, hfree⟩ := exists_free_of_card_lt ch occ hocc hcard
  obtain ⟨b, i, hb, hi, _, hbusy, hret⟩ := AddNode_total ch n hfree
  obtain ⟨hb0, hb1⟩ := hashFn_range hT hb
  refine ⟨i, _, _, hi, fun fuel hfuel => ?_, hret, hret _ (by omega)⟩
  unfold AddNode
  simp only [hb, probe_none hT fuel b hb0 hb1 (fun j hj => hbusy j (by omega))]

/-- C18 at the ring of `main`, five of whose 50 slots are occupied, and a sixth node. -/
theorem C18_probe_terminates_witness :
    ∃ (i : Nat) (s : Int) (ch' : ConsistentHash), (i : Int) < mainRing.TotalSlots ∧
      (∀ fuel : Nat, fuel ≤ i → AddNode fuel mainRing nodeF = .running) ∧
      (∀ fuel : Nat, i < fuel → AddNode fuel mainRing nodeF = .returns (s, ch')) ∧
      AddNode mainRing.TotalSlots.toNat mainRing nodeF = .returns (s, ch') :=
  C18_probe_terminates mainRing nodeF mainRing.Keys.toFinset (by decide)
    (fun k => by
      rw [List.mem_toFinset]
      exact ((RingInv_ringOf _ _ (by decide)).2 k).symm)
    (by decide)

/-- C19: frame of `RemoveNode`.  On a ring satisfying the invariant, with
`b = hashFn n.Host TotalSlots`: if `b` is not occupied `RemoveNode n` leaves the ring as it
was; if `b` is occupied it removes slot `b` from `Keys` and from `Nodes`, whichever node is
stored there; in both cases every slot other than `b` keeps its occupancy and its node, and
`TotalSlots` is unchanged. -/
theorem C19_remove_frame (ch : ConsistentHash) (n : StorageNode) (b : Int)
    (hinv : RingInv ch) (hb : hashFn n.Host ch.TotalSlots = .ok b) :
    ∃ ch', RemoveNode ch n = .ok ch' ∧
      (ch.Nodes b = none → ch' = ch) ∧
      (ch.Nodes b ≠ none → b ∉ ch'.Keys ∧ ch'.Nodes b = none) ∧
      (∀ k, k ≠ b → (k ∈ ch'.Keys ↔ k ∈ ch.Keys) ∧ ch'.Nodes k = ch.Nodes k) ∧
      ch'.TotalSlots = ch.TotalSlots := by
  by_cases hk : b ∈ ch.Keys
  · obtain ⟨ch', hr, hts, _, hmem, hnodes⟩ := RemoveNode_spec hinv hb
    refine ⟨ch', hr, fun hnone => absurd hnone ((hinv.2 b).mp hk), fun _ => ⟨?_, ?_⟩,
      fun k hkb => ⟨?_, ?_⟩, hts⟩
    · intro hm
      exact ((hmem b).mp hm).2 rfl
    · rw [hnodes]; exact Function.update_same _ _ _
    · rw [hmem k]
      exact ⟨fun h => h.1, fun h => ⟨h, hkb⟩⟩
    · rw [hnodes]; exact Function.update_noteq hkb _ _
  · refine ⟨ch, RemoveNode_miss hb hk, fun _ => rfl, fun hocc => ?_, fun k _ => ⟨Iff.rfl, rfl⟩,
      rfl⟩
    exact absurd ((hinv.2 b).mpr hocc) hk

/-- C19 at the ring of 10 slots holding `D` at slot 2 and `E` at slot 3, from which `E`, of
base slot 2, is removed. -/
theorem C19_remove_frame_witness :
    hashFn nodeE.Host (ringOf [(2, nodeD), (3, nodeE)] 10).TotalSlots = .ok 2 ∧
    ∃ ch', RemoveNode (ringOf [(2, nodeD), (3, nodeE)] 10) nodeE = .ok ch' ∧
      ((ringOf [(2, nodeD), (3, nodeE)] 10).Nodes 2 = none →
        ch' = ringOf [(2, nodeD), (3, nodeE)] 10) ∧
      ((ringOf [(2, nodeD), (3, nodeE)] 10).Nodes 2 ≠ none →
        (2 : Int) ∉ ch'.Keys ∧ ch'.Nodes 2 = none) ∧
      (∀ k, k ≠ 2 → (k ∈ ch'.Keys ↔ k ∈ (ringOf [(2, nodeD), (3, nodeE)] 10).Keys) ∧
        ch'.Nodes k = (ringOf [(2, nodeD), (3, nodeE)] 10).Nodes k) ∧
      ch'.TotalSlots = (ringOf [(2, nodeD), (3, nodeE)] 10).TotalSlots :=
  ⟨by decide,
    C19_remove_frame (ringOf [(2, nodeD), (3, nodeE)] 10) nodeE 2
      (RingInv_ringOf _ _ (by decide)) (by decide)⟩

/-- Where `int` is wider than 32 bits (the 64-bit builds), the baseline `hashFn` returns for
every key an index in `[0, len(storageNodes))`, and `storageNodes[index]` yields a node. -/
theorem baseline_index_in_bounds_wide (bits : Nat) (hbits : 32 < bits) (key : String) :
    ∃ (index : Int) (node : StorageNode), Baseline.hashFn bits key = .ok index ∧
      0 ≤ index ∧ index < Baseline.storageNodes.length ∧
      Baseline.nodeAt index = .ok node ∧ Baseline.route bits key = .ok node := by
  have hlt := fnv1a_lt (Sha256.stringBytes key)
  have hp1 : 2 ^ 32 ≤ 2 ^ (bits - 1) := Nat.pow_le_pow_right (by decide) (by omega)
  have hp2 : 2 ^ 32 ≤ 2 ^ bits := Nat.pow_le_pow_right (by decide) (by omega)
  have hint : Baseline.goInt bits (Baseline.fnv1a (Sha256.stringBytes key))
      = Int.ofNat (Baseline.fnv1a (Sha256.stringBytes key)) := by
    unfold Baseline.goInt
    have h1 : Baseline.fnv1a (Sha256.stringBytes key) % 2 ^ bits
        = Baseline.fnv1a (Sha256.stringBytes key) := Nat.mod_eq_of_lt (by omega)
    rw [h1, if_pos (by omega)]
  have hlen : Int.ofNat Baseline.storageNodes.length = 5 := rfl
  have hh : Baseline.hashFn bits key
      = .ok (Int.ofNat (Baseline.fnv1a (Sha256.stringBytes key)) % 5) := by
    unfold Baseline.hashFn
    rw [hint, hlen, if_neg (by decide)]
    exact congrArg Except.ok
      (@Int.tmod_eq_emod (Int.ofNat (Baseline.fnv1a (Sha256.stringBytes key))) 5
        (Int.ofNat_zero_le _) (by decide))
  have h0 : 0 ≤ Int.ofNat (Baseline.fnv1a (Sha256.stringBytes key)) % 5 :=
    Int.emod_nonneg _ (by decide)
  have h5 : Int.ofNat (Baseline.fnv1a (Sha256.stringBytes key)) % 5 < 5 :=
    Int.emod_lt_of_pos _ (by decide)
  have hnode : ∀ index : Int, 0 ≤ index → index < 5 →
      ∃ node, Baseline.nodeAt index = .ok node := by
    intro index hi0 hi5
    interval_cases index <;> exact ⟨_, rfl⟩
  obtain ⟨node, hn⟩ := hnode _ h0 h5
  refine ⟨_, node, hh, h0, h5, hn, ?_⟩
  unfold Baseline.route
  rw [hh]
  exact hn

/-- C20 (failing input): on a build whose `int` has 32 bits, the file `f4.txt` of `main` has
the FNV-1a value 3663505233, which `int(h.Sum32())` converts to -631462063; the baseline
`hashFn` returns -3, and the access `storageNodes[-3]` of `main`, `upload` and `fetch` panics
with an index out of range.  On a build whose `int` has 64 bits the same key gets index 3. -/
theorem C20_baseline_index_negative_on_32_bits :
    Baseline.fnv1a (Sha256.stringBytes "f4.txt") = 3663505233 ∧
    Baseline.goInt 32 3663505233 = -631462063 ∧
    Baseline.hashFn 32 "f4.txt" = .ok (-3) ∧
    Baseline.nodeAt (-3) = .error .indexOutOfRange ∧
    Baseline.route 32 "f4.txt" = .error .indexOutOfRange ∧
    Baseline.hashFn 64 "f4.txt" = .ok 3 ∧
    Baseline.route 64 "f4.txt" = .ok ⟨"D", ""⟩ := by
  decide
